import Mathlib

/-!
Verification of the vision-LLM food-composition pipeline
(`index_vision_llm_processor.py`) against its natural-language

The Python program is shallowly embedded: a table row (a Python `dict`
from column name to cell string) is an insertion-ordered association
list; Python dict assignment is `updRow` (overwrite in place, append
new keys at the end); regular-expression behaviour is translated into
explicit, executable search functions whose semantics are derived from
the Python `re` engine (leftmost match, greedy and lazy quantifier
priority, backtracking) and documented at each definition.

Modelling conventions, used throughout:
* Python `str` is Lean `String` (a list of unicode code points; Python
  strings compare lexicographically by code point, as Lean strings do).
* `str.isdigit`, the regex class `\d`, `[a-zA-Z]` and `str.isalpha`
  are modelled with ASCII `Char.isDigit` / `Char.isAlpha`; the Python
  originals also accept rare non-ASCII digit and letter code points,
  which do not occur in food-code data.
* Python whitespace (`\s`, `str.strip`) is modelled by
  `Char.isWhitespace` (space, tab, CR, LF); Python additionally treats
  `\f`, `\v` and unicode spaces as whitespace, none of which occur here.
-/

/-- One parsed table row: a Python dict mapping column names to cell
strings, kept in insertion order. -/
abbrev Row := List (String × String)

def foodCodeKey : String := "foodCode"

def foodNameKey : String := "foodName"

/-- Python `d[k] = v`: overwrite in place if the key exists (a Python
dict keeps the original position of an overwritten key), otherwise
append the new key at the end. -/
def updRow (r : Row) (k v : String) : Row :=
  if (List.lookup k r).isSome then
    r.map (fun p => if p.1 = k then (k, v) else p)
  else
    r ++ [(k, v)]

/-- Python `k in d` on a row. -/
def hasKey (r : Row) (k : String) : Bool :=
  (List.lookup k r).isSome

/-- Python whitespace test used for `\s` and `str.strip` (see header). -/
def isPySpace (c : Char) : Bool := c.isWhitespace

/-- Python `str.strip()` on a character list. -/
def pyStripL (cs : List Char) : List Char :=
  ((cs.dropWhile isPySpace).reverse.dropWhile isPySpace).reverse

/-- Python `str.strip()`. -/
def pyStrip (s : String) : String := ⟨pyStripL s.data⟩

/-- Python `str.isdigit()` (ASCII model): non-empty and all digits. -/
def pyIsdigitL (cs : List Char) : Bool := !cs.isEmpty && cs.all Char.isDigit

/-- Numeric value of a decimal digit string, as Python `int(...)`. -/
def natOfDigits (cs : List Char) : Nat :=
  cs.foldl (fun n c => 10 * n + (c.toNat - 48)) 0

/-- First index `k` with `start ≤ k < start + fuel` satisfying `p`,
scanning upward from `start`.  This is the search order of a regular
expression's leftmost-shortest choice point. -/
def firstValid (p : Nat → Bool) : Nat → Nat → Option Nat
  | 0, _ => none
  | fuel + 1, k => if p k then some k else firstValid p fuel (k + 1)

theorem firstValid_some_spec (p : Nat → Bool) (fuel start k : Nat)
    (h : firstValid p fuel start = some k) :
    p k = true ∧ start ≤ k ∧ k < start + fuel ∧
      ∀ j, start ≤ j → j < k → p j = false := by
  induction fuel generalizing start with
  | zero => simp [firstValid] at h
  | succ n ih =>
    rw [firstValid] at h
    by_cases hp : p start = true
    · simp [hp] at h
      subst h
      exact ⟨hp, Nat.le_refl _, by omega, fun j h1 h2 => absurd h1 (by omega)⟩
    · simp [hp] at h
      obtain ⟨hk, h1, h2, h3⟩ := ih (start + 1) h
      refine ⟨hk, by omega, by omega, fun j hj1 hj2 => ?_⟩
      rcases Nat.eq_or_lt_of_le hj1 with rfl | hlt
      · simpa using hp
      · exact h3 j hlt hj2

theorem firstValid_none_spec (p : Nat → Bool) (fuel start : Nat)
    (h : firstValid p fuel start = none) :
    ∀ j, start ≤ j → j < start + fuel → p j = false := by
  induction fuel generalizing start with
  | zero => omega
  | succ n ih =>
    rw [firstValid] at h
    by_cases hp : p start = true
    · simp [hp] at h
    · simp [hp] at h
      intro j hj1 hj2
      rcases Nat.eq_or_lt_of_le hj1 with rfl | hlt
      · simpa using hp
      · exact ih (start + 1) h j hlt (by omega)

theorem firstValid_eq_some (p : Nat → Bool) (fuel start k : Nat)
    (hk : p k = true) (h1 : start ≤ k) (h2 : k < start + fuel)
    (hmin : ∀ j, start ≤ j → j < k → p j = false) :
    firstValid p fuel start = some k := by
  induction fuel generalizing start with
  | zero => omega
  | succ n ih =>
    rw [firstValid]
    rcases Nat.eq_or_lt_of_le h1 with rfl | hlt
    · simp [hk]
    · have hs : p start = false := hmin start (Nat.le_refl _) hlt
      simp [hs]
      exact ih (start + 1) hlt (by omega) (fun j hj1 hj2 => hmin j (by omega) hj2)

/-! ## Sorting by food code (`sort_food_data_by_code`, source lines 106-130)

The Python sort key of a row:
* `food_code = item.get("foodCode", "0")`;
* if `food_code.isdigit()`: key `(int(food_code), "")`;
* else if `re.match(r'(\d+)([a-zA-Z]*)', food_code)` succeeds — i.e.
  the string starts with at least one digit; the greedy `\d+` takes the
  maximal leading digit run and `[a-zA-Z]*` the maximal letter run
  right after it, any remaining characters being ignored because
  `re.match` only anchors at the start — key `(int(run), letters)`;
* else key `(0, food_code)`.

`sorted` compares key tuples lexicographically. -/

def get_sort_key (item : Row) : Nat × String :=
  let food_code := (List.lookup foodCodeKey item).getD ("0")
  if pyIsdigitL food_code.data then
    (natOfDigits food_code.data, "")
  else
    let ds := food_code.data.takeWhile Char.isDigit
    let letters := (food_code.data.drop ds.length).takeWhile Char.isAlpha
    if !ds.isEmpty then (natOfDigits ds, ⟨letters⟩)
    else (0, food_code)

/-- Python string comparison: lexicographic by unicode code point,
with a proper prefix ordered first. -/
def strLEL : List Char → List Char → Bool
  | [], _ => true
  | _ :: _, [] => false
  | a :: as, b :: bs => a.toNat < b.toNat || (a.toNat == b.toNat && strLEL as bs)

theorem strLEL_trans (as : List Char) : ∀ bs cs, strLEL as bs = true →
    strLEL bs cs = true → strLEL as cs = true := by
  induction as with
  | nil => intro bs cs _ _; rfl
  | cons a as' ih =>
    intro bs cs h1 h2
    cases bs with
    | nil => simp [strLEL] at h1
    | cons b bs' =>
      cases cs with
      | nil => simp [strLEL] at h2
      | cons c cs' =>
        simp only [strLEL, Bool.or_eq_true, Bool.and_eq_true, beq_iff_eq,
          decide_eq_true_eq] at h1 h2 ⊢
        rcases h1 with h1 | ⟨e1, r1⟩ <;> rcases h2 with h2 | ⟨e2, r2⟩
        · exact Or.inl (by omega)
        · exact Or.inl (by omega)
        · exact Or.inl (by omega)
        · exact Or.inr ⟨by omega, ih bs' cs' r1 r2⟩

theorem strLEL_total (as : List Char) : ∀ bs,
    (strLEL as bs || strLEL bs as) = true := by
  induction as with
  | nil => intro bs; simp [strLEL]
  | cons a as' ih =>
    intro bs
    cases bs with
    | nil => simp [strLEL]
    | cons b bs' =>
      simp only [strLEL, Bool.or_eq_true, Bool.and_eq_true, beq_iff_eq,
        decide_eq_true_eq]
      rcases Nat.lt_trichotomy a.toNat b.toNat with h | h | h
      · exact Or.inl (Or.inl h)
      · rcases Bool.or_eq_true _ _ |>.mp (ih bs') with hs | hs
        · exact Or.inl (Or.inr ⟨h, hs⟩)
        · exact Or.inr (Or.inr ⟨h.symm, hs⟩)
      · exact Or.inr (Or.inl h)

/-- Lexicographic order on Python key tuples `(int, str)`. -/
def sortKeyLE (a b : Nat × String) : Bool :=
  a.1 < b.1 || (a.1 == b.1 && strLEL a.2.data b.2.data)

def rowLE (a b : Row) : Bool := sortKeyLE (get_sort_key a) (get_sort_key b)

abbrev rowLEP (a b : Row) : Prop := rowLE a b = true

/-- Python `sorted(data, key=get_sort_key)` is a stable sort with
respect to the key order; a stable sort's output is uniquely determined
by the input and the (total, transitive) key order, so it is modelled
by stable insertion sort. -/
def sort_food_data_by_code (data : List Row) : List Row :=
  List.insertionSort rowLEP data

theorem sortKeyLE_trans (a b c : Nat × String)
    (h1 : sortKeyLE a b = true) (h2 : sortKeyLE b c = true) :
    sortKeyLE a c = true := by
  simp only [sortKeyLE, Bool.or_eq_true, Bool.and_eq_true, beq_iff_eq,
    decide_eq_true_eq] at h1 h2 ⊢
  rcases h1 with h1 | ⟨e1, s1⟩ <;> rcases h2 with h2 | ⟨e2, s2⟩
  · exact Or.inl (Nat.lt_trans h1 h2)
  · exact Or.inl (by omega)
  · exact Or.inl (by omega)
  · exact Or.inr ⟨by omega, strLEL_trans _ _ _ s1 s2⟩

theorem sortKeyLE_total (a b : Nat × String) :
    (sortKeyLE a b || sortKeyLE b a) = true := by
  simp only [sortKeyLE, Bool.or_eq_true, Bool.and_eq_true, beq_iff_eq,
    decide_eq_true_eq]
  rcases Nat.lt_trichotomy a.1 b.1 with h | h | h
  · exact Or.inl (Or.inl h)
  · rcases Bool.or_eq_true _ _ |>.mp (strLEL_total a.2.data b.2.data) with hs | hs
    · exact Or.inl (Or.inr ⟨h, hs⟩)
    · exact Or.inr (Or.inr ⟨h.symm, hs⟩)
  · exact Or.inr (Or.inl h)

theorem rowLE_trans (a b c : Row) (h1 : rowLE a b = true)
    (h2 : rowLE b c = true) : rowLE a c = true :=
  sortKeyLE_trans _ _ _ h1 h2

theorem rowLE_total (a b : Row) : (rowLE a b || rowLE b a) = true :=
  sortKeyLE_total _ _

instance : IsTotal Row rowLEP :=
  ⟨fun a b => by
    have := rowLE_total a b
    rcases Bool.or_eq_true _ _ |>.mp this with h | h
    · exact Or.inl h
    · exact Or.inr h⟩

instance : IsTrans Row rowLEP :=
  ⟨fun a b c h1 h2 => rowLE_trans a b c h1 h2⟩

theorem sort_perm (data : List Row) :
    (sort_food_data_by_code data).Perm data :=
  List.perm_insertionSort rowLEP data

theorem sort_sorted (data : List Row) :
    (sort_food_data_by_code data).Pairwise (fun a b => rowLE a b = true) :=
  List.sorted_insertionSort rowLEP data

/-- Helper: `takeWhile` over a concatenation whose left part wholly
satisfies the predicate. -/
theorem takeWhile_append_all {p : Char → Bool} (l1 l2 : List Char)
    (h : l1.all p = true) :
    (l1 ++ l2).takeWhile p = l1 ++ l2.takeWhile p := by
  induction l1 with
  | nil => simp
  | cons x xs ih =>
    simp only [List.all_cons, Bool.and_eq_true] at h
    simp [List.takeWhile_cons, h.1, ih h.2]

theorem takeWhile_nil_of_head {p : Char → Bool} (l : List Char)
    (h : ∀ c, l.head? = some c → p c = false) :
    l.takeWhile p = [] := by
  cases l with
  | nil => rfl
  | cons x xs => simp [List.takeWhile_cons, h x rfl]

/-! ## Claim C2 / C10: sort-key semantics -/

/-- Sort key exactly as the claim words it: purely numeric strings map
to `(value, "")`; a string that is, as a whole, a digit run followed by
letters maps to `(run value, letters)`; any other string maps to the
degenerate key `(0, original string)`. -/
def claimKeyOrig (item : Row) : Nat × String :=
  let code := (List.lookup foodCodeKey item).getD ("0")
  if pyIsdigitL code.data then (natOfDigits code.data, "")
  else
    let ds := code.data.takeWhile Char.isDigit
    let rest := code.data.drop ds.length
    if !ds.isEmpty && rest.all Char.isAlpha then (natOfDigits ds, ⟨rest⟩)
    else (0, code)

def c2CexData : List Row := [[(foodCodeKey, "12.5")], [(foodCodeKey, "3")]]

/-- C2 counterexample: on food codes `"12.5"` and `"3"` the program's
sort key for `"12.5"` is `(12, "")` (the regex `(\d+)([a-zA-Z]*)` only
anchors at the start, so trailing junk such as `.5` is ignored), not
the degenerate `(0, "12.5")` the claim prescribes; the output
`["3", "12.5"]` is therefore not ascending with respect to the claimed
key, refuting the claim as stated. -/
theorem C2_counterexample :
    ¬ ((sort_food_data_by_code c2CexData).Pairwise
        (fun a b => sortKeyLE (claimKeyOrig a) (claimKeyOrig b) = true)) := by
  decide

def c2Example : List Row :=
  [[(foodCodeKey, "121102")], [(foodCodeKey, "121101")],
   [(foodCodeKey, "124201x")], [(foodCodeKey, "124200")]]

def c2ExampleSorted : List Row :=
  [[(foodCodeKey, "121101")], [(foodCodeKey, "121102")],
   [(foodCodeKey, "124200")], [(foodCodeKey, "124201x")]]

/-- C2 (amended): sorting is ascending (lexicographic on pairs) by the
key: purely numeric `foodCode` gives `(value, "")`; otherwise a
`foodCode` that *begins* with a digit run gives `(run value, letter run
immediately after it)` with any remaining characters ignored; a
`foodCode` not beginning with a digit gives `(0, original string)`.
The output is a permutation of the input, pairwise ascending by that
key, and the concrete example of the claim sorts as stated. -/
theorem C2_amended :
    (∀ data : List Row, (sort_food_data_by_code data).Perm data)
    ∧ (∀ data : List Row,
        (sort_food_data_by_code data).Pairwise
          (fun a b => sortKeyLE (get_sort_key a) (get_sort_key b) = true))
    ∧ (∀ (item : Row) (code : String),
        List.lookup foodCodeKey item = some code → code ≠ "" →
        code.data.all Char.isDigit = true →
        get_sort_key item = (natOfDigits code.data, ""))
    ∧ (∀ (item : Row) (code : String) (ds letters rest : List Char),
        List.lookup foodCodeKey item = some code →
        code.data = ds ++ letters ++ rest →
        ds ≠ [] → ds.all Char.isDigit = true →
        letters.all Char.isAlpha = true →
        (∀ c, (letters ++ rest).head? = some c → c.isDigit = false) →
        (∀ c, rest.head? = some c → c.isAlpha = false) →
        letters ++ rest ≠ [] →
        get_sort_key item = (natOfDigits ds, ⟨letters⟩))
    ∧ (∀ (item : Row) (code : String),
        List.lookup foodCodeKey item = some code →
        (∀ c, code.data.head? = some c → c.isDigit = false) →
        get_sort_key item = (0, code))
    ∧ sort_food_data_by_code c2Example = c2ExampleSorted := by
  refine ⟨sort_perm, sort_sorted, ?_, ?_, ?_, by decide⟩
  · intro item code hl hne hall
    have hd : code.data.isEmpty = false := by
      rw [List.isEmpty_eq_false]
      intro h
      exact hne (by cases code; simp_all)
    simp [get_sort_key, hl, pyIsdigitL, hall, hd]
  · intro item code ds letters rest hl hdecomp hds hdsall hlall hhead hrest hne
    have hnotall : code.data.all Char.isDigit = false := by
      rw [hdecomp]
      cases hlr : letters ++ rest with
      | nil => exact absurd hlr hne
      | cons c t =>
        have hc : c.isDigit = false := hhead c (by rw [hlr]; rfl)
        rw [List.append_assoc, hlr]
        simp only [List.all_append, List.all_cons]
        simp [hc]
    have htw : code.data.takeWhile Char.isDigit = ds := by
      rw [hdecomp, List.append_assoc, takeWhile_append_all _ _ hdsall,
        takeWhile_nil_of_head _ (fun c hc => hhead c hc), List.append_nil]
    have hdrop : code.data.drop ds.length = letters ++ rest := by
      rw [hdecomp, List.append_assoc, List.drop_left]
    have htw2 : (letters ++ rest).takeWhile Char.isAlpha = letters := by
      rw [takeWhile_append_all _ _ hlall,
        takeWhile_nil_of_head _ (fun c hc => hrest c hc), List.append_nil]
    have hpd : pyIsdigitL code.data = false := by
      simp [pyIsdigitL, hnotall]
    simp only [get_sort_key, hl, Option.getD_some, hpd, Bool.false_eq_true,
      if_false, htw, hdrop, htw2]
    simp [hds]
  · intro item code hl hhead
    have htw : code.data.takeWhile Char.isDigit = [] :=
      takeWhile_nil_of_head _ hhead
    have hpd : pyIsdigitL code.data = false := by
      cases hc : code.data with
      | nil => simp [pyIsdigitL, hc]
      | cons c t =>
        have := hhead c (by rw [hc]; rfl)
        simp [pyIsdigitL, hc, this]
    simp [get_sort_key, hl, hpd, htw]

/-- C2 amended witness: the theorem applied at concrete inputs, every
hypothesis discharged there. -/
theorem C2_amended_witness :
    get_sort_key [(foodCodeKey, "124201x")] = (124201, "x") :=
  C2_amended.2.2.2.1 [(foodCodeKey, "124201x")] ("124201x")
    ("124201".data) ("x".data) [] (by decide) (by decide) (by decide)
    (by decide) (by decide) (fun c hc => by simp at hc; simp [← hc])
    (fun c hc => by simp at hc) (by decide)

def c10WitnessData : List Row := [[("a", "b")], [("c", "d")]]

/-- C10: sorting by food code is total — it returns a permutation of
the input — and a record lacking a `foodCode` key receives the default
key `(0, "")` (from `item.get("foodCode", "0")` with `"0".isdigit()`),
so in the output it appears no later than any record whose `foodCode`
has a positive numeric key component. -/
theorem C10_sort_total_and_default :
    (∀ data : List Row, (sort_food_data_by_code data).Perm data)
    ∧ (∀ item : Row, List.lookup foodCodeKey item = none →
        get_sort_key item = (0, ""))
    ∧ (∀ (data : List Row) (i j : Nat) (hi : i < (sort_food_data_by_code data).length)
        (hj : j < (sort_food_data_by_code data).length), i < j →
        List.lookup foodCodeKey ((sort_food_data_by_code data).get ⟨j, hj⟩) = none →
        (get_sort_key ((sort_food_data_by_code data).get ⟨i, hi⟩)).1 = 0) := by
  have hdefault : ∀ item : Row, List.lookup foodCodeKey item = none →
      get_sort_key item = (0, "") := by
    intro item hl
    simp only [get_sort_key, hl, Option.getD_none]
    decide
  refine ⟨sort_perm, hdefault, ?_⟩
  intro data i j hi hj hij hnone
  have hs := sort_sorted data
  rw [List.pairwise_iff_getElem] at hs
  have hrel := hs i j hi hj hij
  have hkeyj : get_sort_key ((sort_food_data_by_code data).get ⟨j, hj⟩) = (0, "") :=
    hdefault _ hnone
  simp only [rowLE, List.get_eq_getElem] at hrel hkeyj ⊢
  rw [hkeyj] at hrel
  simp only [sortKeyLE, Bool.or_eq_true, Bool.and_eq_true, beq_iff_eq,
    decide_eq_true_eq] at hrel
  rcases hrel with h | ⟨h, _⟩
  · omega
  · exact h

/-- C10 witness: the theorem applied at a concrete list whose second
sorted element lacks a `foodCode` key. -/
theorem C10_witness :
    (sort_food_data_by_code c10WitnessData).Perm c10WitnessData ∧
      (get_sort_key ((sort_food_data_by_code c10WitnessData).get
        ⟨0, by decide⟩)).1 = 0 :=
  ⟨C10_sort_total_and_default.1 c10WitnessData,
    C10_sort_total_and_default.2.2 c10WitnessData 0 1 (by decide) (by decide)
      (by decide) (by decide)⟩

/-! ## Pair merging (`merge_data`, source lines 635-690)

`merge_data` builds a dict keyed by `foodCode` from each side (rows
whose `foodCode` is missing or empty — falsy in Python — are skipped;
a later row with the same code overwrites an earlier one, as in a dict
comprehension), iterates over the set-union of the key sets, and for
each code copies energy-schema fields from the energy row, copies
nutrient-schema fields other than `foodCode`/`foodName` from the
nutrient row, backfills a still-missing `foodCode`/`foodName` from the
nutrient row, and keeps the record only if both identity keys are
present.  CPython iterates the key set in an unspecified order; the
embedding fixes one enumeration (energy keys first, then new nutrient
keys); every property proved below is per-code and order-independent. -/

def energy_cols : List String :=
  [foodCodeKey, foodNameKey, "edible", "water", "energyKCal", "energyKJ",
   "protein", "fat", "CHO", "dietaryFiber", "cholesterol", "ash",
   "vitaminA", "carotene", "retinol", "thiamin", "riboflavin"]

def nutrient_cols : List String :=
  [foodCodeKey, foodNameKey, "niacin", "vitaminC", "vitaminETotal",
   "vitaminE1", "vitaminE2", "vitaminE3", "Ca", "P", "K", "Na", "Mg",
   "Fe", "Zn", "Se", "Cu", "Mn", "remark"]

/-- Python truthiness of `item.get("foodCode")`: present and non-empty. -/
def truthyFoodCode (item : Row) : Bool :=
  match List.lookup foodCodeKey item with
  | some s => !(s == "")
  | none => false

/-- Generic dict assignment `d[k] = v` for string-keyed dicts. -/
def updAssoc {β : Type} (d : List (String × β)) (k : String) (v : β) :
    List (String × β) :=
  if (List.lookup k d).isSome then
    d.map (fun p => if p.1 = k then (k, v) else p)
  else
    d ++ [(k, v)]

/-- The dict comprehension
`{item.get("foodCode", ""): item for item in data if item.get("foodCode")}`. -/
def dictByCode (data : List Row) : List (String × Row) :=
  data.foldl (fun d item =>
    if truthyFoodCode item then
      updAssoc d ((List.lookup foodCodeKey item).getD ("")) item
    else d) []

def keysOf {β : Type} (d : List (String × β)) : List String := d.map Prod.fst

/-- Enumeration of `set(energy_dict) | set(nutrient_dict)`. -/
def unionCodes (ed nd : List (String × Row)) : List String :=
  keysOf ed ++ (keysOf nd).filter (fun c => !(keysOf ed).contains c)

/-- Loop body `if key in r: m[key] = r[key]` of the merge loops. -/
def applyCol (r : Row) (m : Row) (key : String) : Row :=
  match List.lookup key r with
  | some v => updRow m key v
  | none => m

/-- The two copy loops of `merge_data`: energy-schema fields from the
energy row, then nutrient-schema fields excluding the identity keys
from the nutrient row. -/
def mergeBase (energy_item nutrient_item : Row) : Row :=
  nutrient_cols.foldl
    (fun m key =>
      if !(key == foodCodeKey || key == foodNameKey) then
        applyCol nutrient_item m key
      else m)
    (energy_cols.foldl (applyCol energy_item) [])

/-- The backfill statement
`if "foodCode" not in merged_item and "foodCode" in nutrient_item: ...`. -/
def backfillFC (m nutrient_item : Row) : Row :=
  if hasKey m foodCodeKey then m
  else
    match List.lookup foodCodeKey nutrient_item with
    | some v => updRow m foodCodeKey v
    | none => m

/-- The backfill statement
`if "foodName" not in merged_item and "foodName" in nutrient_item: ...`. -/
def backfillFN (m nutrient_item : Row) : Row :=
  if hasKey m foodNameKey then m
  else
    match List.lookup foodNameKey nutrient_item with
    | some v => updRow m foodNameKey v
    | none => m

/-- The per-code body of `merge_data`'s main loop, translated
statement by statement (copy loops, presence check, the two backfill
`if`s, final presence check, drop on failure). -/
def mergeOne (energy_item nutrient_item : Row) : Option Row :=
  let m2 := mergeBase energy_item nutrient_item
  if hasKey m2 foodCodeKey && hasKey m2 foodNameKey then some m2
  else
    let m4 := backfillFN (backfillFC m2 nutrient_item) nutrient_item
    if hasKey m4 foodCodeKey && hasKey m4 foodNameKey then some m4 else none

def merge_data (energy_data nutrient_data : List Row) : List Row :=
  if energy_data.isEmpty && nutrient_data.isEmpty then []
  else
    (unionCodes (dictByCode energy_data) (dictByCode nutrient_data)).filterMap
      (fun code =>
        mergeOne ((List.lookup code (dictByCode energy_data)).getD [])
          ((List.lookup code (dictByCode nutrient_data)).getD []))

/-! Specification-level combinators, written from the claim's wording:
restriction of a row to a schema, dict-overlay of one row on another,
and backfill of missing identity fields from a source row. -/

/-- The row `r` restricted to the fields of `cols`, in schema order. -/
def restrictRow (r : Row) (cols : List String) : Row :=
  cols.filterMap (fun k => (List.lookup k r).map (fun v => (k, v)))

/-- Overlay: apply every binding of `extra` on top of `base`. -/
def overlayRow (base extra : Row) : Row :=
  extra.foldl (fun m kv => updRow m kv.1 kv.2) base

/-- Backfill each still-missing identity field from `src`. -/
def specBackfill (m src : Row) : Row :=
  [foodCodeKey, foodNameKey].foldl
    (fun acc k =>
      if hasKey acc k then acc
      else
        match List.lookup k src with
        | some v => updRow acc k v
        | none => acc) m

/-- The claim's description of one merged record: energy row restricted
to the energy schema, overlaid with the nutrient row restricted to the
nutrient schema minus the identity fields, identity fields backfilled
from the nutrient row, and dropped unless both identity fields are
present. -/
def specMergeRecord (energy_item nutrient_item : Row) : Option Row :=
  let filled :=
    specBackfill
      (overlayRow (restrictRow energy_item energy_cols)
        (restrictRow nutrient_item
          (nutrient_cols.filter
            (fun k => !(k == foodCodeKey || k == foodNameKey)))))
      nutrient_item
  if hasKey filled foodCodeKey && hasKey filled foodNameKey then some filled
  else none

/-! Association-list lemmas. -/

theorem lookup_append {β : Type} (k : String) (l1 l2 : List (String × β)) :
    List.lookup k (l1 ++ l2) =
      match List.lookup k l1 with
      | some v => some v
      | none => List.lookup k l2 := by
  induction l1 with
  | nil => simp [List.lookup]
  | cons p l1' ih =>
    cases p with
    | mk a b =>
      by_cases h : k == a
      · simp [List.lookup, h]
      · simp only [List.cons_append, List.lookup]
        rw [Bool.of_not_eq_true h]
        exact ih

theorem hasKey_append (k : String) (l1 l2 : Row) :
    hasKey (l1 ++ l2) k = (hasKey l1 k || hasKey l2 k) := by
  simp only [hasKey, lookup_append]
  cases List.lookup k l1 <;> simp

theorem updRow_of_not_hasKey (m : Row) (k v : String)
    (h : hasKey m k = false) : updRow m k v = m ++ [(k, v)] := by
  simp only [hasKey] at h
  simp [updRow, h]

theorem restrict_cons_none (r : Row) (c : String) (cols : List String)
    (hl : List.lookup c r = none) :
    restrictRow r (c :: cols) = restrictRow r cols := by
  simp only [restrictRow]
  exact List.filterMap_cons_none (by simp [hl])

theorem restrict_cons_some (r : Row) (c v : String) (cols : List String)
    (hl : List.lookup c r = some v) :
    restrictRow r (c :: cols) = (c, v) :: restrictRow r cols := by
  simp only [restrictRow]
  exact List.filterMap_cons_some (by simp [hl])

theorem lookup_restrict_of_not_mem (r : Row) (cols : List String)
    (k : String) (h : k ∉ cols) :
    List.lookup k (restrictRow r cols) = none := by
  induction cols with
  | nil => rfl
  | cons c cols' ih =>
    have hkc : k ≠ c := fun e => h (e ▸ List.mem_cons_self c cols')
    have h' : k ∉ cols' := fun e => h (List.mem_cons_of_mem c e)
    cases hl : List.lookup c r with
    | none => rw [restrict_cons_none r c cols' hl]; exact ih h'
    | some v =>
      rw [restrict_cons_some r c v cols' hl, List.lookup_cons,
        beq_eq_false_iff_ne.mpr hkc]
      exact ih h'

theorem lookup_restrict (r : Row) (cols : List String) (k : String)
    (hnd : cols.Nodup) :
    List.lookup k (restrictRow r cols) =
      if k ∈ cols then List.lookup k r else none := by
  induction cols with
  | nil => simp [restrictRow]
  | cons c cols' ih =>
    have hnd' : cols'.Nodup := (List.nodup_cons.mp hnd).2
    have hcn : c ∉ cols' := (List.nodup_cons.mp hnd).1
    have IH := ih hnd'
    cases hl : List.lookup c r with
    | none =>
      rw [restrict_cons_none r c cols' hl, IH]
      by_cases hkc : k = c
      · subst hkc
        simp [hcn, hl]
      · simp [hkc]
    | some v =>
      rw [restrict_cons_some r c v cols' hl, List.lookup_cons]
      by_cases hkc : k = c
      · subst hkc
        simp [hl]
      · rw [beq_eq_false_iff_ne.mpr hkc, IH]
        simp [hkc]

theorem keysOf_restrict (r : Row) (cols : List String) :
    keysOf (restrictRow r cols) = cols.filter (fun k => hasKey r k) := by
  induction cols with
  | nil => rfl
  | cons c cols' ih =>
    cases hl : List.lookup c r with
    | none =>
      have hh : hasKey r c = false := by simp [hasKey, hl]
      rw [restrict_cons_none r c cols' hl, List.filter_cons, hh]
      simp only [Bool.false_eq_true, if_false]
      exact ih
    | some v =>
      have hh : hasKey r c = true := by simp [hasKey, hl]
      rw [restrict_cons_some r c v cols' hl, List.filter_cons, hh]
      simp only [if_true, keysOf, List.map_cons]
      rw [show List.map Prod.fst (restrictRow r cols') = keysOf (restrictRow r cols') from rfl, ih]

theorem updRow_eq_updAssoc (r : Row) (k v : String) :
    updRow r k v = updAssoc r k v := rfl

theorem lookup_map_upd {β : Type} (d : List (String × β)) (k : String) (v : β)
    (h : (List.lookup k d).isSome = true) :
    List.lookup k (d.map (fun p => if p.1 = k then (k, v) else p)) = some v := by
  induction d with
  | nil => simp [List.lookup] at h
  | cons p d' ih =>
    cases p with
    | mk a b =>
      by_cases hka : k = a
      · subst hka
        simp [List.lookup_cons]
      · have : (k == a) = false := beq_eq_false_iff_ne.mpr hka
        rw [List.lookup_cons, this] at h
        simp only [List.map_cons]
        have ha : (a = k) = False := by simp [Ne.symm hka]
        simp only [ha, if_false]
        rw [List.lookup_cons, this]
        exact ih h

theorem lookup_map_upd_ne {β : Type} (d : List (String × β)) (c k : String)
    (v : β) (hck : c ≠ k) :
    List.lookup c (d.map (fun p => if p.1 = k then (k, v) else p)) =
      List.lookup c d := by
  induction d with
  | nil => rfl
  | cons p d' ih =>
    cases p with
    | mk a b =>
      by_cases hak : a = k
      · subst hak
        simp only [List.map_cons, if_pos trivial, List.lookup_cons,
          beq_eq_false_iff_ne.mpr hck]
        simpa using ih
      · simp only [List.map_cons, if_neg hak, List.lookup_cons]
        cases hca : (c == a) with
        | true => rfl
        | false => exact ih

theorem lookup_updAssoc_self {β : Type} (d : List (String × β))
    (k : String) (v : β) :
    List.lookup k (updAssoc d k v) = some v := by
  unfold updAssoc
  cases hl : List.lookup k d with
  | some w =>
    have hs : (List.lookup k d).isSome = true := by rw [hl]; rfl
    rw [if_pos (show (some w).isSome = true from rfl)]
    exact lookup_map_upd d k v hs
  | none =>
    rw [if_neg (by simp)]
    rw [lookup_append, hl]
    simp [List.lookup_cons]

theorem lookup_updAssoc_ne {β : Type} (d : List (String × β))
    (c k : String) (v : β) (hck : c ≠ k) :
    List.lookup c (updAssoc d k v) = List.lookup c d := by
  unfold updAssoc
  cases hl : List.lookup k d with
  | some w =>
    rw [if_pos (show (some w).isSome = true from rfl)]
    exact lookup_map_upd_ne d c k v hck
  | none =>
    rw [if_neg (by simp)]
    rw [lookup_append]
    cases hl2 : List.lookup c d with
    | some w => rfl
    | none => simp [List.lookup_cons, beq_eq_false_iff_ne.mpr hck]

/-- A guarded fold is the fold over the filtered column list. -/
theorem foldl_guard_filter {β : Type} (step : β → String → β)
    (p : String → Bool) :
    ∀ (cols : List String) (acc : β),
      cols.foldl (fun m key => if p key then step m key else m) acc =
        (cols.filter p).foldl step acc := by
  intro cols
  induction cols with
  | nil => intro acc; rfl
  | cons c cols' ih =>
    intro acc
    rw [List.foldl_cons, List.filter_cons]
    by_cases hc : p c = true
    · simp only [hc, if_true, List.foldl_cons]
      exact ih (step acc c)
    · simp only [hc, Bool.false_eq_true, if_false]
      exact ih acc

/-- The copy loop `for key in cols: if key in r: m[key] = r[key]`,
started from an accumulator containing none of the keys of `cols`,
appends exactly the restriction of `r` to `cols`. -/
theorem foldl_applyCol (r : Row) :
    ∀ (cols : List String) (acc : Row), cols.Nodup →
      (∀ k ∈ cols, hasKey acc k = false) →
      cols.foldl (applyCol r) acc = acc ++ restrictRow r cols := by
  intro cols
  induction cols with
  | nil => intro acc _ _; simp [restrictRow]
  | cons c cols' ih =>
    intro acc hnd hfresh
    have hnd' : cols'.Nodup := (List.nodup_cons.mp hnd).2
    have hcn : c ∉ cols' := (List.nodup_cons.mp hnd).1
    rw [List.foldl_cons]
    cases hl : List.lookup c r with
    | none =>
      have hstep : applyCol r acc c = acc := by simp [applyCol, hl]
      rw [hstep, restrict_cons_none r c cols' hl]
      exact ih acc hnd' (fun k hk => hfresh k (List.mem_cons_of_mem c hk))
    | some v =>
      have hstep : applyCol r acc c = acc ++ [(c, v)] := by
        simp only [applyCol, hl]
        exact updRow_of_not_hasKey acc c v (hfresh c (List.mem_cons_self c cols'))
      rw [hstep, restrict_cons_some r c v cols' hl]
      have hfresh' : ∀ k ∈ cols', hasKey (acc ++ [(c, v)]) k = false := by
        intro k hk
        rw [hasKey_append]
        have h1 : hasKey acc k = false := hfresh k (List.mem_cons_of_mem c hk)
        have hkc : k ≠ c := fun e => hcn (e ▸ hk)
        have h2 : hasKey [(c, v)] k = false := by
          simp [hasKey, List.lookup_cons, beq_eq_false_iff_ne.mpr hkc]
        rw [h1, h2]
        rfl
      rw [ih (acc ++ [(c, v)]) hnd' hfresh', List.append_assoc]
      rfl

/-- Overlaying a row whose keys are fresh for the base and pairwise
distinct is concatenation. -/
theorem overlay_append :
    ∀ (extra base : Row), (∀ k ∈ keysOf extra, hasKey base k = false) →
      (keysOf extra).Nodup → overlayRow base extra = base ++ extra := by
  intro extra
  induction extra with
  | nil => intro base _ _; simp [overlayRow]
  | cons kv rest ih =>
    intro base hfresh hnd
    cases kv with
    | mk k v =>
      have hk : hasKey base k = false :=
        hfresh k (List.mem_cons_self _ _)
      have hnd' : (keysOf rest).Nodup := (List.nodup_cons.mp hnd).2
      have hkn : k ∉ keysOf rest := (List.nodup_cons.mp hnd).1
      simp only [overlayRow, List.foldl_cons]
      have hstep : updRow base k v = base ++ [(k, v)] :=
        updRow_of_not_hasKey base k v hk
      rw [hstep]
      have hfresh' : ∀ k' ∈ keysOf rest, hasKey (base ++ [(k, v)]) k' = false := by
        intro k' hk'
        rw [hasKey_append]
        have h1 : hasKey base k' = false := hfresh k' (List.mem_cons_of_mem _ hk')
        have hkc : k' ≠ k := fun e => hkn (e ▸ hk')
        have h2 : hasKey [(k, v)] k' = false := by
          simp [hasKey, List.lookup_cons, beq_eq_false_iff_ne.mpr hkc]
        rw [h1, h2]
        rfl
      have := ih (base ++ [(k, v)]) hfresh' hnd'
      rw [show overlayRow (base ++ [(k, v)]) rest =
        List.foldl (fun m kv => updRow m kv.1 kv.2) (base ++ [(k, v)]) rest from rfl] at this
      rw [this, List.append_assoc]
      rfl

def nonIdentityCol (k : String) : Bool := !(k == foodCodeKey || k == foodNameKey)

theorem restrictRow_nil (cols : List String) : restrictRow [] cols = [] := by
  induction cols with
  | nil => rfl
  | cons c cols' ih => rw [restrict_cons_none [] c cols' rfl]; exact ih

/-- The two copy loops of `merge_data` compute exactly: energy row
restricted to the energy schema, concatenated with the nutrient row
restricted to the non-identity nutrient schema. -/
theorem mergeBase_eq (e n : Row) :
    mergeBase e n =
      restrictRow e energy_cols ++
        restrictRow n (nutrient_cols.filter nonIdentityCol) := by
  unfold mergeBase
  have hEfold : energy_cols.foldl (applyCol e) [] = restrictRow e energy_cols := by
    have := foldl_applyCol e energy_cols [] (by decide)
      (fun k _ => by simp [hasKey, List.lookup])
    simpa using this
  rw [hEfold]
  rw [show (fun (m : Row) (key : String) =>
      if !(key == foodCodeKey || key == foodNameKey) then applyCol n m key else m) =
      (fun (m : Row) (key : String) =>
      if nonIdentityCol key then applyCol n m key else m) from rfl]
  rw [foldl_guard_filter (applyCol n) nonIdentityCol nutrient_cols
    (restrictRow e energy_cols)]
  apply foldl_applyCol n (nutrient_cols.filter nonIdentityCol)
    (restrictRow e energy_cols) (by decide)
  intro k hk
  have hknotE : k ∉ energy_cols := by
    have hall : ∀ x ∈ nutrient_cols.filter nonIdentityCol, x ∉ energy_cols := by decide
    exact hall k hk
  simp [hasKey, lookup_restrict_of_not_mem e energy_cols k hknotE]

theorem overlay_restrict_eq (e n : Row) :
    overlayRow (restrictRow e energy_cols)
        (restrictRow n (nutrient_cols.filter nonIdentityCol)) =
      restrictRow e energy_cols ++
        restrictRow n (nutrient_cols.filter nonIdentityCol) := by
  apply overlay_append
  · intro k hk
    rw [keysOf_restrict] at hk
    have hkmem : k ∈ nutrient_cols.filter nonIdentityCol :=
      List.mem_of_mem_filter hk
    have hknotE : k ∉ energy_cols := by
      have hall : ∀ x ∈ nutrient_cols.filter nonIdentityCol, x ∉ energy_cols := by decide
      exact hall k hkmem
    simp [hasKey, lookup_restrict_of_not_mem e energy_cols k hknotE]
  · rw [keysOf_restrict]
    exact List.Nodup.filter _ (by decide)

/-- The per-code loop body equals the claim's restrict / overlay /
backfill / drop description. -/
theorem mergeOne_eq_spec (e n : Row) : mergeOne e n = specMergeRecord e n := by
  have hbase : overlayRow (restrictRow e energy_cols)
      (restrictRow n (nutrient_cols.filter nonIdentityCol)) = mergeBase e n := by
    rw [overlay_restrict_eq, mergeBase_eq]
  have hbf : ∀ m nn : Row, specBackfill m nn = backfillFN (backfillFC m nn) nn :=
    fun m nn => rfl
  simp only [mergeOne, specMergeRecord, hbf]
  rw [show (nutrient_cols.filter
      (fun k => !(k == foodCodeKey || k == foodNameKey))) =
      nutrient_cols.filter nonIdentityCol from rfl]
  rw [hbase]
  by_cases hfc : hasKey (mergeBase e n) foodCodeKey = true
  · by_cases hfn : hasKey (mergeBase e n) foodNameKey = true
    · simp [hfc, hfn, backfillFC, backfillFN]
    · have hfn' : hasKey (mergeBase e n) foodNameKey = false :=
        Bool.not_eq_true _ |>.mp hfn
      simp [hfc, hfn', backfillFC]
  · have hfc' : hasKey (mergeBase e n) foodCodeKey = false :=
      Bool.not_eq_true _ |>.mp hfc
    simp [hfc']

/-- Every value stored in a by-code dict carries its own key as
`foodCode`, and that key is non-empty (falsy codes are filtered out,
and the dict key is the row's own `foodCode` string). -/
theorem dictFold_spec (l : List Row) : ∀ (d0 : List (String × Row)),
    (∀ c it, List.lookup c d0 = some it →
      List.lookup foodCodeKey it = some c ∧ c ≠ "") →
    ∀ c it,
      List.lookup c
        (l.foldl (fun d item =>
          if truthyFoodCode item then
            updAssoc d ((List.lookup foodCodeKey item).getD ("")) item
          else d) d0) = some it →
      List.lookup foodCodeKey it = some c ∧ c ≠ "" := by
  induction l with
  | nil => intro d0 h0 c it h; exact h0 c it h
  | cons item l' ih =>
    intro d0 h0 c it h
    rw [List.foldl_cons] at h
    refine ih _ ?_ c it h
    intro c' it' h'
    by_cases ht : truthyFoodCode item = true
    · rw [if_pos ht] at h'
      cases hfi : List.lookup foodCodeKey item with
      | none =>
        exfalso
        unfold truthyFoodCode at ht
        rw [hfi] at ht
        exact Bool.false_ne_true ht
      | some s =>
        have hsne : s ≠ "" := by
          unfold truthyFoodCode at ht
          rw [hfi] at ht
          simpa using ht
        have hkey : (List.lookup foodCodeKey item).getD ("") = s := by
          rw [hfi]; rfl
        rw [hkey] at h'
        by_cases hcs : c' = s
        · subst hcs
          rw [lookup_updAssoc_self] at h'
          cases h'
          exact ⟨hfi, hsne⟩
        · rw [lookup_updAssoc_ne _ _ _ _ hcs] at h'
          exact h0 c' it' h'
    · rw [if_neg ht] at h'
      exact h0 c' it' h'

theorem dictByCode_mem_spec (data : List Row) (c : String) (it : Row)
    (h : List.lookup c (dictByCode data) = some it) :
    List.lookup foodCodeKey it = some c ∧ c ≠ "" :=
  dictFold_spec data [] (fun c' it' h' => by cases h') c it h

/-- The `foodCode` cell of the merged base record is the energy row's
`foodCode` cell: the nutrient overlay excludes the identity columns. -/
theorem lookup_fc_mergeBase (e n : Row) :
    List.lookup foodCodeKey (mergeBase e n) = List.lookup foodCodeKey e := by
  rw [mergeBase_eq, lookup_append,
    lookup_restrict e energy_cols foodCodeKey (by decide),
    if_pos (by decide : foodCodeKey ∈ energy_cols)]
  cases hle : List.lookup foodCodeKey e with
  | some v => rfl
  | none =>
    exact lookup_restrict_of_not_mem n _ _ (by decide)

/-- The `foodName` backfill cannot change the `foodCode` cell. -/
theorem lookup_fc_backfillFN (m n : Row) :
    List.lookup foodCodeKey (backfillFN m n) = List.lookup foodCodeKey m := by
  unfold backfillFN
  by_cases hfn : hasKey m foodNameKey = true
  · rw [if_pos hfn]
  · rw [if_neg hfn]
    cases hw : List.lookup foodNameKey n with
    | some w =>
      show List.lookup foodCodeKey (updRow m foodNameKey w) =
        List.lookup foodCodeKey m
      rw [updRow_eq_updAssoc,
        lookup_updAssoc_ne _ _ _ _ (by decide : foodCodeKey ≠ foodNameKey)]
    | none => rfl

/-- A record emitted by the per-code merge has both identity keys. -/
theorem mergeOne_some_hasKeys (e n r : Row) (h : mergeOne e n = some r) :
    hasKey r foodCodeKey = true ∧ hasKey r foodNameKey = true := by
  unfold mergeOne at h
  by_cases h1 : (hasKey (mergeBase e n) foodCodeKey &&
      hasKey (mergeBase e n) foodNameKey) = true
  · rw [if_pos h1] at h
    injection h with h2
    subst h2
    simp only [Bool.and_eq_true] at h1
    exact h1
  · rw [if_neg h1] at h
    simp only at h
    by_cases h2 : (hasKey (backfillFN (backfillFC (mergeBase e n) n) n) foodCodeKey &&
        hasKey (backfillFN (backfillFC (mergeBase e n) n) n) foodNameKey) = true
    · rw [if_pos h2] at h
      injection h with h3
      subst h3
      simp only [Bool.and_eq_true] at h2
      exact h2
    · rw [if_neg h2] at h
      cases h

/-- The `foodCode` value of an emitted merged record is taken verbatim
from the energy row or (by backfill) from the nutrient row. -/
theorem mergeOne_some_lookup_fc (e n r : Row) (h : mergeOne e n = some r) :
    (∃ v, List.lookup foodCodeKey e = some v ∧
      List.lookup foodCodeKey r = some v) ∨
    (∃ v, List.lookup foodCodeKey n = some v ∧
      List.lookup foodCodeKey r = some v) := by
  unfold mergeOne at h
  by_cases h1 : (hasKey (mergeBase e n) foodCodeKey &&
      hasKey (mergeBase e n) foodNameKey) = true
  · rw [if_pos h1] at h
    injection h with h2
    have hk : (List.lookup foodCodeKey (mergeBase e n)).isSome = true :=
      (Bool.and_eq_true _ _ ▸ h1).1
    cases hlm : List.lookup foodCodeKey (mergeBase e n) with
    | none => rw [hlm] at hk; cases hk
    | some v =>
      left
      refine ⟨v, ?_, ?_⟩
      · rw [← lookup_fc_mergeBase e n]; exact hlm
      · rw [← h2]; exact hlm
  · rw [if_neg h1] at h
    simp only at h
    by_cases h2 : (hasKey (backfillFN (backfillFC (mergeBase e n) n) n) foodCodeKey &&
        hasKey (backfillFN (backfillFC (mergeBase e n) n) n) foodNameKey) = true
    · rw [if_pos h2] at h
      injection h with h3
      have hr : List.lookup foodCodeKey r =
          List.lookup foodCodeKey (backfillFC (mergeBase e n) n) := by
        rw [← h3, lookup_fc_backfillFN]
      by_cases hk2 : hasKey (mergeBase e n) foodCodeKey = true
      · -- already present: comes from the energy row
        have hbc : backfillFC (mergeBase e n) n = mergeBase e n := by
          unfold backfillFC
          rw [if_pos hk2]
        unfold hasKey at hk2
        cases hlm : List.lookup foodCodeKey (mergeBase e n) with
        | none => rw [hlm] at hk2; cases hk2
        | some v =>
          left
          refine ⟨v, ?_, ?_⟩
          · rw [← lookup_fc_mergeBase e n]; exact hlm
          · rw [hr, hbc]; exact hlm
      · cases hfv : List.lookup foodCodeKey n with
        | some v =>
          -- backfilled from the nutrient row
          right
          refine ⟨v, rfl, ?_⟩
          rw [hr]
          unfold backfillFC
          rw [if_neg hk2, hfv]
          show List.lookup foodCodeKey
            (updRow (mergeBase e n) foodCodeKey v) = some v
          rw [updRow_eq_updAssoc, lookup_updAssoc_self]
        | none =>
          -- no backfill source: the final presence check could not pass
          exfalso
          have hbc : backfillFC (mergeBase e n) n = mergeBase e n := by
            unfold backfillFC
            rw [if_neg hk2, hfv]
          have hk4 : hasKey (backfillFN (backfillFC (mergeBase e n) n) n)
              foodCodeKey = true := (Bool.and_eq_true _ _ ▸ h2).1
          unfold hasKey at hk4
          rw [lookup_fc_backfillFN, hbc] at hk4
          unfold hasKey at hk2
          exact hk2 hk4
    · rw [if_neg h2] at h
      cases h

theorem restrictRow_hasKey_mem (r : Row) (cols : List String) (k : String)
    (h : hasKey (restrictRow r cols) k = true) : k ∈ cols := by
  by_cases hm : k ∈ cols
  · exact hm
  · exfalso
    unfold hasKey at h
    rw [lookup_restrict_of_not_mem r cols k hm] at h
    cases h

/-- With an empty nutrient side, an emitted record is exactly the
energy row restricted to the energy schema. -/
theorem mergeOne_nil_right (e r : Row) (h : mergeOne e [] = some r) :
    r = restrictRow e energy_cols ∧
      hasKey r foodCodeKey = true ∧ hasKey r foodNameKey = true := by
  have hm2 : mergeBase e [] = restrictRow e energy_cols := by
    rw [mergeBase_eq, restrictRow_nil, List.append_nil]
  have hbc : backfillFC (mergeBase e []) [] = mergeBase e [] := by
    unfold backfillFC
    by_cases hk : hasKey (mergeBase e []) foodCodeKey = true
    · rw [if_pos hk]
    · rw [if_neg hk]; rfl
  have hbn : backfillFN (backfillFC (mergeBase e []) []) [] =
      backfillFC (mergeBase e []) [] := by
    unfold backfillFN
    by_cases hk : hasKey (backfillFC (mergeBase e []) []) foodNameKey = true
    · rw [if_pos hk]
    · rw [if_neg hk]; rfl
  unfold mergeOne at h
  simp only at h
  rw [hbn, hbc] at h
  by_cases h1 : (hasKey (mergeBase e []) foodCodeKey &&
      hasKey (mergeBase e []) foodNameKey) = true
  · rw [if_pos h1] at h
    injection h with h2
    subst h2
    have hand := Bool.and_eq_true _ _ ▸ h1
    exact ⟨hm2, hand.1, hand.2⟩
  · rw [if_neg h1, if_neg h1] at h
    cases h

/-! ## Claim C1 / C6: pair-merge semantics -/

/-- C1: for every energy-side and nutrient-side row list, the pair
merge emits, per food code of the union of the two key sets, exactly
the record described by the claim — energy row restricted to the
energy schema, overlaid with the nutrient row restricted to the
nutrient schema minus `foodCode`/`foodName`, identity fields
backfilled from the nutrient row, record dropped when an identity
field is still missing; and merging with an empty nutrient side yields
records containing only energy-schema fields, each having `foodCode`
and `foodName`. -/
theorem C1_pair_merge_semantics :
    (∀ energy_data nutrient_data : List Row,
      merge_data energy_data nutrient_data =
        (unionCodes (dictByCode energy_data) (dictByCode nutrient_data)).filterMap
          (fun code =>
            specMergeRecord
              ((List.lookup code (dictByCode energy_data)).getD [])
              ((List.lookup code (dictByCode nutrient_data)).getD [])))
    ∧ (∀ (energy_data : List Row) (r : Row), r ∈ merge_data energy_data [] →
        (∀ k, hasKey r k = true → k ∈ energy_cols) ∧
          hasKey r foodCodeKey = true ∧ hasKey r foodNameKey = true) := by
  constructor
  · intro e n
    unfold merge_data
    by_cases h : (e.isEmpty && n.isEmpty) = true
    · rw [if_pos h]
      have he : e = [] := by
        have := (Bool.and_eq_true _ _ ▸ h).1
        cases e
        · rfl
        · cases this
      have hn : n = [] := by
        have := (Bool.and_eq_true _ _ ▸ h).2
        cases n
        · rfl
        · cases this
      subst he
      subst hn
      rfl
    · rw [if_neg h]
      simp only [mergeOne_eq_spec]
  · intro e r hmem
    unfold merge_data at hmem
    by_cases h : (e.isEmpty && List.isEmpty ([] : List Row)) = true
    · rw [if_pos h] at hmem
      cases hmem
    · rw [if_neg h] at hmem
      obtain ⟨code, hc, hsome⟩ := List.mem_filterMap.mp hmem
      have hnil : ((List.lookup code (dictByCode ([] : List Row))).getD [] : Row) = [] := rfl
      rw [hnil] at hsome
      obtain ⟨hrestrict, hfc, hfn⟩ :=
        mergeOne_nil_right ((List.lookup code (dictByCode e)).getD []) r hsome
      refine ⟨?_, hfc, hfn⟩
      intro k hk
      rw [hrestrict] at hk
      exact restrictRow_hasKey_mem _ energy_cols k hk

def c1WitnessEnergy : List Row := [[(foodCodeKey, "1"), (foodNameKey, "fish")]]

def c1WitnessRecord : Row := [(foodCodeKey, "1"), (foodNameKey, "fish")]

/-- C1 witness: the theorem's empty-nutrient part applied at a concrete
one-row energy list, the membership hypothesis discharged by `decide`. -/
theorem C1_witness :
    hasKey c1WitnessRecord foodCodeKey = true ∧
      hasKey c1WitnessRecord foodNameKey = true :=
  ⟨(C1_pair_merge_semantics.2 c1WitnessEnergy c1WitnessRecord (by decide)).2.1,
    (C1_pair_merge_semantics.2 c1WitnessEnergy c1WitnessRecord (by decide)).2.2⟩

def c6CexEnergy : List Row := [[(foodCodeKey, "1"), (foodNameKey, "")]]

/-- C6 counterexample: the merge only checks *presence* of the
identity keys, never non-emptiness of `foodName`: an energy row with
`foodName` equal to the empty string is emitted with an empty
`foodName` value, refuting the claim that every emitted record has a
non-empty `foodName`. -/
theorem C6_counterexample :
    ¬ (∀ r ∈ merge_data c6CexEnergy [],
        List.lookup foodNameKey r ≠ some ("")) := by
  decide

/-- C6 (amended): every record emitted by the pair merge has a
*non-empty* `foodCode` value and a *present* `foodName` key (whose
value may be the empty string). -/
theorem C6_amended :
    ∀ (energy_data nutrient_data : List Row) (r : Row),
      r ∈ merge_data energy_data nutrient_data →
      (∃ c, List.lookup foodCodeKey r = some c ∧ c ≠ "") ∧
        (List.lookup foodNameKey r).isSome = true := by
  intro e n r hmem
  unfold merge_data at hmem
  by_cases h : (e.isEmpty && n.isEmpty) = true
  · rw [if_pos h] at hmem
    cases hmem
  · rw [if_neg h] at hmem
    obtain ⟨code, hc, hsome⟩ := List.mem_filterMap.mp hmem
    constructor
    · rcases mergeOne_some_lookup_fc _ _ _ hsome with ⟨v, hve, hvr⟩ | ⟨v, hvn, hvr⟩
      · -- the value came from the energy-side dict row
        cases hed : List.lookup code (dictByCode e) with
        | none =>
          exfalso
          rw [hed, Option.getD_none] at hve
          cases hve
        | some it =>
          rw [hed, Option.getD_some] at hve
          obtain ⟨hit, hne⟩ := dictByCode_mem_spec e code it hed
          rw [hit] at hve
          injection hve with hv
          exact ⟨v, hvr, hv ▸ hne⟩
      · -- the value came from the nutrient-side dict row
        cases hnd : List.lookup code (dictByCode n) with
        | none =>
          exfalso
          rw [hnd, Option.getD_none] at hvn
          cases hvn
        | some it =>
          rw [hnd, Option.getD_some] at hvn
          obtain ⟨hit, hne⟩ := dictByCode_mem_spec n code it hnd
          rw [hit] at hvn
          injection hvn with hv
          exact ⟨v, hvr, hv ▸ hne⟩
    · have := (mergeOne_some_hasKeys _ _ _ hsome).2
      unfold hasKey at this
      exact this

/-- C6 amended witness: the theorem applied to the counterexample
input — even the record whose `foodName` is empty carries a non-empty
`foodCode` and a present `foodName` key. -/
theorem C6_amended_witness :
    (∃ c, List.lookup foodCodeKey
        ([(foodCodeKey, "1"), (foodNameKey, "")] : Row) = some c ∧ c ≠ "") ∧
      (List.lookup foodNameKey
        ([(foodCodeKey, "1"), (foodNameKey, "")] : Row)).isSome = true :=
  C6_amended c6CexEnergy []
    ([(foodCodeKey, "1"), (foodNameKey, "")] : Row) (by decide)

/-! ## Retry with backoff and quarantine
(`process_image_with_retry`, source lines 258-307)

The Python loop: while `retries <= max_retries`, sleep `5 ** retries`
seconds when `retries > 0`, run one extraction attempt; on success
delete the image's error file if it exists and return the rows; on an
exception increment `retries` and remember the error.  After the loop,
write the error file `"Error after {max_retries} retries: {err}"` with
the last error and return `[]`.

The extraction attempt is modelled by an oracle
`att : Nat → Except String (List Row)` giving each (1-based) attempt's
outcome; the quarantine file's state before the call is
`pre : Option String`; the outcome records the sleeps performed in
order, the number of attempts made, the returned rows, the final
quarantine-file state, and whether a pre-existing quarantine file was
deleted. -/

structure RetryOutcome where
  sleeps : List Nat
  attempts : Nat
  rows : List Row
  quarantine : Option String
  deletedQuarantine : Bool

def quarantineMessage (maxRetries : Nat) (err : String) : String :=
  "Error after " ++ toString maxRetries ++ " retries: " ++ err

def retryAux (att : Nat → Except String (List Row)) (maxRetries : Nat)
    (pre : Option String) : Nat → Nat → String → RetryOutcome
  | 0, _, lastErr =>
      { sleeps := [], attempts := 0, rows := [],
        quarantine := some (quarantineMessage maxRetries lastErr),
        deletedQuarantine := false }
  | fuel + 1, retries, _ =>
      let sleepsHere : List Nat := if 0 < retries then [5 ^ retries] else []
      match att (retries + 1) with
      | Except.ok rows =>
          { sleeps := sleepsHere, attempts := 1, rows := rows,
            quarantine := none, deletedQuarantine := pre.isSome }
      | Except.error e =>
          let rest := retryAux att maxRetries pre fuel (retries + 1) e
          { sleeps := sleepsHere ++ rest.sleeps,
            attempts := rest.attempts + 1, rows := rest.rows,
            quarantine := rest.quarantine,
            deletedQuarantine := rest.deletedQuarantine }

/-- `process_image_with_retry`: at most `maxRetries + 1` attempts,
starting with `retries = 0` and `last_error = None` (whose Python
string form is `"None"`). -/
def process_image_with_retry (att : Nat → Except String (List Row))
    (maxRetries : Nat) (pre : Option String) : RetryOutcome :=
  retryAux att maxRetries pre (maxRetries + 1) 0 ("None")

theorem retryAux_succ_ok (att : Nat → Except String (List Row))
    (maxRetries : Nat) (pre : Option String) (fuel retries : Nat)
    (lastErr : String) (rows : List Row)
    (h : att (retries + 1) = Except.ok rows) :
    retryAux att maxRetries pre (fuel + 1) retries lastErr =
      { sleeps := if 0 < retries then [5 ^ retries] else [],
        attempts := 1, rows := rows, quarantine := none,
        deletedQuarantine := pre.isSome } := by
  simp only [retryAux, h]

theorem retryAux_succ_error (att : Nat → Except String (List Row))
    (maxRetries : Nat) (pre : Option String) (fuel retries : Nat)
    (lastErr e : String) (h : att (retries + 1) = Except.error e) :
    retryAux att maxRetries pre (fuel + 1) retries lastErr =
      { sleeps := (if 0 < retries then [5 ^ retries] else []) ++
          (retryAux att maxRetries pre fuel (retries + 1) e).sleeps,
        attempts := (retryAux att maxRetries pre fuel (retries + 1) e).attempts + 1,
        rows := (retryAux att maxRetries pre fuel (retries + 1) e).rows,
        quarantine := (retryAux att maxRetries pre fuel (retries + 1) e).quarantine,
        deletedQuarantine :=
          (retryAux att maxRetries pre fuel (retries + 1) e).deletedQuarantine } := by
  simp only [retryAux, h]

theorem retryAux_sleeps (att : Nat → Except String (List Row))
    (maxRetries : Nat) (pre : Option String) :
    ∀ (fuel retries : Nat) (lastErr : String),
      (retryAux att maxRetries pre fuel retries lastErr).attempts ≤ fuel ∧
      (retryAux att maxRetries pre fuel retries lastErr).sleeps =
        ((((List.range (retryAux att maxRetries pre fuel retries lastErr).attempts).map
          (fun i => retries + i)).filter (fun j => decide (0 < j))).map
          (fun j => 5 ^ j)) := by
  intro fuel
  induction fuel with
  | zero => intro retries lastErr; exact ⟨Nat.le_refl _, rfl⟩
  | succ f ih =>
    intro retries lastErr
    cases hatt : att (retries + 1) with
    | ok rows =>
      rw [retryAux_succ_ok att maxRetries pre f retries lastErr rows hatt]
      constructor
      · show 1 ≤ f + 1
        omega
      · show (if 0 < retries then [5 ^ retries] else []) =
          (((List.range 1).map (fun i => retries + i)).filter
            (fun j => decide (0 < j))).map (fun j => 5 ^ j)
        rw [show List.range 1 = [0] from by decide, List.map_cons,
          List.map_nil, List.filter_cons]
        by_cases hr : 0 < retries
        · rw [if_pos hr]
          simp [decide_eq_true (show 0 < retries + 0 by omega), hr]
        · have hr0 : retries = 0 := by omega
          subst hr0
          simp
    | error e =>
      obtain ⟨iha, ihs⟩ := ih (retries + 1) e
      rw [retryAux_succ_error att maxRetries pre f retries lastErr e hatt]
      constructor
      · show (retryAux att maxRetries pre f (retries + 1) e).attempts + 1 ≤ f + 1
        omega
      · show (if 0 < retries then [5 ^ retries] else []) ++
          (retryAux att maxRetries pre f (retries + 1) e).sleeps =
          (((List.range
              ((retryAux att maxRetries pre f (retries + 1) e).attempts + 1)).map
            (fun i => retries + i)).filter
              (fun j => decide (0 < j))).map (fun j => 5 ^ j)
        rw [ihs]
        rw [show ((retryAux att maxRetries pre f (retries + 1) e).attempts + 1) =
          Nat.succ (retryAux att maxRetries pre f (retries + 1) e).attempts from rfl]
        rw [List.range_succ_eq_map, List.map_cons, List.map_map]
        rw [List.map_congr_left
          (show ∀ i ∈ List.range (retryAux att maxRetries pre f (retries + 1) e).attempts,
            ((fun i => retries + i) ∘ Nat.succ) i = (fun i => retries + 1 + i) i from
            fun i _ => by simp [Function.comp]; omega)]
        rw [List.filter_cons]
        by_cases hr : 0 < retries
        · simp [hr]
        · have hr0 : retries = 0 := by omega
          subst hr0
          simp

theorem range_filter_pos (n : Nat) :
    (List.range n).filter (fun j => decide (0 < j)) =
      (List.range (n - 1)).map Nat.succ := by
  cases n with
  | zero => rfl
  | succ m =>
    rw [List.range_succ_eq_map, List.filter_cons]
    simp only [decide_eq_true_eq, Nat.lt_irrefl, if_neg, Nat.succ_sub_one]
    rw [List.filter_map]
    have : (List.range m).filter ((fun j => decide (0 < j)) ∘ Nat.succ) =
        List.range m := by
      apply List.filter_eq_self.mpr
      intro a _
      simp [Function.comp]
    simp only [Function.comp] at this ⊢
    rw [this]
    simp

/-- C3: the retrying fetcher makes at most `maxRetries + 1` attempts,
never sleeps before attempt 1, and sleeps exactly `5^(k-1)` before
attempt `k` for every `k ≥ 2` — the i-th sleep (0-based) is `5^(i+1)`
and there are `attempts - 1` of them; in particular an extraction
failing on attempts 1 and 2 and succeeding on attempt 3 sleeps exactly
twice, 5 then 25 time units, strictly increasing. -/
theorem C3_retry_backoff :
    (∀ (att : Nat → Except String (List Row)) (maxRetries : Nat)
        (pre : Option String),
      (process_image_with_retry att maxRetries pre).attempts ≤ maxRetries + 1 ∧
      (process_image_with_retry att maxRetries pre).sleeps =
        (List.range ((process_image_with_retry att maxRetries pre).attempts - 1)).map
          (fun i => 5 ^ (i + 1)))
    ∧ (∀ (att : Nat → Except String (List Row)) (maxRetries : Nat)
        (pre : Option String) (r : List Row), 2 ≤ maxRetries →
        (∃ e1, att 1 = Except.error e1) → (∃ e2, att 2 = Except.error e2) →
        att 3 = Except.ok r →
        (process_image_with_retry att maxRetries pre).sleeps = [5, 25]) := by
  constructor
  · intro att maxRetries pre
    obtain ⟨ha, hs⟩ := retryAux_sleeps att maxRetries pre (maxRetries + 1) 0 ("None")
    refine ⟨ha, ?_⟩
    show (retryAux att maxRetries pre (maxRetries + 1) 0 ("None")).sleeps = _
    rw [hs]
    rw [List.map_congr_left
      (show ∀ i ∈ List.range (retryAux att maxRetries pre (maxRetries + 1) 0 ("None")).attempts,
        (fun i => 0 + i) i = id i from fun i _ => by simp)]
    rw [List.map_id, range_filter_pos, List.map_map]
    apply List.map_congr_left
    intro i _
    simp [Function.comp]
  · intro att maxRetries pre r hm he1x he2x hok
    obtain ⟨e1, he1⟩ := he1x
    obtain ⟨e2, he2⟩ := he2x
    obtain ⟨m, rfl⟩ : ∃ m, maxRetries = m + 2 := ⟨maxRetries - 2, by omega⟩
    show (retryAux att (m + 2) pre (m + 2 + 1) 0 ("None")).sleeps = [5, 25]
    rw [show m + 2 + 1 = (m + 2) + 1 from rfl,
      retryAux_succ_error att (m + 2) pre (m + 2) 0 ("None") e1
        (by rw [show (0 : Nat) + 1 = 1 from rfl]; exact he1)]
    rw [show m + 2 = (m + 1) + 1 from rfl,
      retryAux_succ_error att (m + 2) pre (m + 1) 1 e1 e2
        (by rw [show (1 : Nat) + 1 = 2 from rfl]; exact he2)]
    rw [show m + 1 = m + 1 from rfl,
      retryAux_succ_ok att (m + 2) pre m 2 e2 r
        (by rw [show (2 : Nat) + 1 = 3 from rfl]; exact hok)]
    simp

def c3Att : Nat → Except String (List Row) :=
  fun k => if k == 3 then Except.ok [[(foodCodeKey, "1")]]
    else Except.error ("boom")

/-- C3 witness: the scenario part applied at a concrete oracle failing
on attempts 1 and 2 and succeeding on attempt 3. -/
theorem C3_witness :
    (process_image_with_retry c3Att 3 none).sleeps = [5, 25] :=
  C3_retry_backoff.2 c3Att 3 none [[(foodCodeKey, "1")]] (by omega)
    ⟨"boom", rfl⟩ ⟨"boom", rfl⟩ rfl

theorem retryAux_all_fail (att : Nat → Except String (List Row))
    (maxRetries : Nat) (pre : Option String) :
    ∀ (fuel retries : Nat) (lastErr : String), 1 ≤ fuel →
      (∀ k, retries + 1 ≤ k → k ≤ retries + fuel → ∃ e, att k = Except.error e) →
      ∃ e, att (retries + fuel) = Except.error e ∧
        (retryAux att maxRetries pre fuel retries lastErr).rows = [] ∧
        (retryAux att maxRetries pre fuel retries lastErr).quarantine =
          some (quarantineMessage maxRetries e) ∧
        (retryAux att maxRetries pre fuel retries lastErr).deletedQuarantine = false := by
  intro fuel
  induction fuel with
  | zero => intro retries lastErr h; omega
  | succ f ih =>
    intro retries lastErr _ hall
    obtain ⟨e, he⟩ := hall (retries + 1) (Nat.le_refl _) (by omega)
    cases f with
    | zero =>
      refine ⟨e, he, ?_⟩
      rw [retryAux_succ_error att maxRetries pre 0 retries lastErr e he]
      exact ⟨rfl, rfl, rfl⟩
    | succ f' =>
      obtain ⟨e', he', hrows, hq, hd⟩ :=
        ih (retries + 1) e (by omega)
          (fun k hk1 hk2 => hall k (by omega) (by omega))
      refine ⟨e', by rw [show retries + (f' + 1 + 1) = retries + 1 + (f' + 1) from by omega]; exact he', ?_⟩
      rw [retryAux_succ_error att maxRetries pre (f' + 1) retries lastErr e he]
      exact ⟨hrows, hq, hd⟩

theorem retryAux_first_success (att : Nat → Except String (List Row))
    (maxRetries : Nat) (pre : Option String) :
    ∀ (fuel retries : Nat) (lastErr : String) (k : Nat) (r : List Row),
      retries + 1 ≤ k → k ≤ retries + fuel → att k = Except.ok r →
      (∀ j, retries + 1 ≤ j → j < k → ∃ e, att j = Except.error e) →
      (retryAux att maxRetries pre fuel retries lastErr).rows = r ∧
      (retryAux att maxRetries pre fuel retries lastErr).quarantine = none ∧
      (retryAux att maxRetries pre fuel retries lastErr).deletedQuarantine =
        pre.isSome := by
  intro fuel
  induction fuel with
  | zero => intro retries lastErr k r h1 h2 _ _; omega
  | succ f ih =>
    intro retries lastErr k r h1 h2 hok hprev
    by_cases hk : k = retries + 1
    · subst hk
      rw [retryAux_succ_ok att maxRetries pre f retries lastErr r hok]
      exact ⟨rfl, rfl, rfl⟩
    · obtain ⟨e, he⟩ := hprev (retries + 1) (Nat.le_refl _) (by omega)
      rw [retryAux_succ_error att maxRetries pre f retries lastErr e he]
      exact ih (retries + 1) e k r (by omega) (by omega) hok
        (fun j hj1 hj2 => hprev j (by omega) hj2)

/-- C4: when every one of the `maxRetries + 1` attempts fails, the
fetcher returns `[]` without raising and the quarantine file holds the
message built from the *last* attempt's error (the message is a fixed
prefix with that error appended); when some attempt succeeds (all
earlier ones having failed), the fetcher returns that attempt's rows,
leaves no quarantine file, and deletes a pre-existing quarantine file
exactly when one existed. -/
theorem C4_quarantine_lifecycle :
    ∀ (att : Nat → Except String (List Row)) (maxRetries : Nat)
      (pre : Option String),
      ((∀ k, 1 ≤ k → k ≤ maxRetries + 1 → ∃ e, att k = Except.error e) →
        (process_image_with_retry att maxRetries pre).rows = [] ∧
        ∃ e, att (maxRetries + 1) = Except.error e ∧
          (process_image_with_retry att maxRetries pre).quarantine =
            some (quarantineMessage maxRetries e) ∧
          quarantineMessage maxRetries e =
            ("Error after " ++ toString maxRetries ++ " retries: ") ++ e)
      ∧ (∀ (k : Nat) (r : List Row), 1 ≤ k → k ≤ maxRetries + 1 →
          att k = Except.ok r →
          (∀ j, 1 ≤ j → j < k → ∃ e, att j = Except.error e) →
          (process_image_with_retry att maxRetries pre).rows = r ∧
          (process_image_with_retry att maxRetries pre).quarantine = none ∧
          (process_image_with_retry att maxRetries pre).deletedQuarantine =
            pre.isSome) := by
  intro att maxRetries pre
  constructor
  · intro hall
    obtain ⟨e, he, hrows, hq, _⟩ :=
      retryAux_all_fail att maxRetries pre (maxRetries + 1) 0 ("None")
        (by omega) (fun k hk1 hk2 => hall k (by omega) (by omega))
    refine ⟨hrows, e, by simpa using he, hq, rfl⟩
  · intro k r h1 h2 hok hprev
    exact retryAux_first_success att maxRetries pre (maxRetries + 1) 0 ("None")
      k r (by omega) (by omega) hok (fun j hj1 hj2 => hprev j (by omega) hj2)

def c4AttSucc : Nat → Except String (List Row) :=
  fun k => if k == 2 then Except.ok [[(foodCodeKey, "2")]]
    else Except.error ("boom")

def c4AttFail : Nat → Except String (List Row) :=
  fun _ => Except.error ("down")

/-- C4 witness: both parts of the theorem applied at concrete oracles —
one that always fails (quarantine written, empty result) and one that
succeeds on attempt 2 with a pre-existing quarantine file (rows
returned, quarantine gone, old file deleted). -/
theorem C4_witness :
    ((process_image_with_retry c4AttFail 1 none).rows = [] ∧
      ∃ e, c4AttFail 2 = Except.error e ∧
        (process_image_with_retry c4AttFail 1 none).quarantine =
          some (quarantineMessage 1 e) ∧
        quarantineMessage 1 e =
          ("Error after " ++ toString 1 ++ " retries: ") ++ e)
    ∧ ((process_image_with_retry c4AttSucc 3 (some ("old"))).rows =
        [[(foodCodeKey, "2")]] ∧
      (process_image_with_retry c4AttSucc 3 (some ("old"))).quarantine = none ∧
      (process_image_with_retry c4AttSucc 3 (some ("old"))).deletedQuarantine =
        (some ("old")).isSome) :=
  ⟨(C4_quarantine_lifecycle c4AttFail 1 none).1
      (fun k h1 h2 => ⟨"down", rfl⟩),
    (C4_quarantine_lifecycle c4AttSucc 3 (some ("old"))).2 2
      [[(foodCodeKey, "2")]] (by omega) (by omega) rfl
      (fun j hj1 hj2 => ⟨"boom", by
        have : j = 1 := by omega
        subst this
        rfl⟩)⟩

/-! ## Base-category extraction (`extract_base_category`, source
lines 714-727) and the second-pass category merge
(`merge_similar_categories`, source lines 815-884)

`extract_base_category` evaluates `re.match(r'(.+?)\d+$', category)`.
Semantics of that pattern: the lazy group `(.+?)` tries prefixes of
increasing length `k ≥ 1` (its characters may not be a newline, since
`.` does not match `\n` without `re.DOTALL`); for a given `k` the rest
of the string must be wholly matched by `\d+$` — a non-empty digit run
ending the string, where `$` may also match just before one final
trailing newline.  The result is the shortest such prefix; without a
match the category is returned unchanged. -/

def startsWithL (s pre : List Char) : Bool := pre.isPrefixOf s

/-- Validity of a lazy-group length `k` for `(.+?)\d+$`. -/
def ebcValid (cs : List Char) (k : Nat) : Bool :=
  (cs.take k).all (fun c => !(c == '\n')) &&
    ((!(cs.drop k).isEmpty && (cs.drop k).all Char.isDigit) ||
      ((cs.drop k).getLast? == some '\n' &&
        !(cs.drop k).dropLast.isEmpty &&
        (cs.drop k).dropLast.all Char.isDigit))

def extract_base_category (category : String) : String :=
  match firstValid (ebcValid category.data) category.data.length 1 with
  | some k => ⟨category.data.take k⟩
  | none => category

/-- The claim's original base-category rule: strip the trailing run of
digits; a stem with no trailing digits is standalone (kept whole). -/
def claimBaseOrig (s : String) : String :=
  if (s.data.reverse.takeWhile Char.isDigit).isEmpty then s
  else ⟨(s.data.reverse.dropWhile Char.isDigit).reverse⟩

/-- The amended base-category rule: strip the longest trailing digit
run that leaves a non-empty prefix — an all-digit stem of length at
least two keeps exactly its first character, and a stem with no
trailing digits, or a single all-digit character, is standalone. -/
def amendedBase (s : String) : String :=
  let trailingDigits := s.data.reverse.takeWhile Char.isDigit
  let kept := s.data.reverse.dropWhile Char.isDigit
  if trailingDigits.isEmpty then s
  else if kept.isEmpty then
    if 2 ≤ s.data.length then ⟨s.data.take 1⟩ else s
  else ⟨kept.reverse⟩

theorem getLast?_mem_self (l : List Char) (a : Char)
    (h : l.getLast? = some a) : a ∈ l := by
  induction l with
  | nil => cases h
  | cons x xs ih =>
    cases xs with
    | nil =>
      rw [List.getLast?_singleton] at h
      injection h with h2
      rw [← h2]
      exact List.mem_cons_self _ _
    | cons y ys =>
      rw [List.getLast?_cons_cons] at h
      exact List.mem_cons_of_mem x (ih h)

/-- `(take m l).all p` holds exactly when `takeWhile p` swallows the
first `min m l.length` elements. -/
theorem take_all_iff_takeWhile (p : Char → Bool) (l : List Char) :
    ∀ m, ((l.take m).all p = true ↔
      min m l.length ≤ (l.takeWhile p).length) := by
  induction l with
  | nil => intro m; simp
  | cons x xs ih =>
    intro m
    cases m with
    | zero => simp
    | succ m' =>
      rw [List.take_succ_cons, List.all_cons, Bool.and_eq_true]
      by_cases hx : p x = true
      · rw [List.takeWhile_cons, if_pos hx]
        simp only [hx, true_and, List.length_cons]
        rw [ih m']
        omega
      · rw [List.takeWhile_cons, if_neg hx]
        simp only [List.length_nil, List.length_cons]
        constructor
        · rintro ⟨hfalse, _⟩
          exact absurd hfalse hx
        · intro hle
          exfalso
          omega

theorem drop_all_digit_iff (cs : List Char) (k : Nat) (hk : k ≤ cs.length) :
    ((cs.drop k).all Char.isDigit = true) ↔
      cs.length - k ≤ (cs.reverse.takeWhile Char.isDigit).length := by
  have h1 : (cs.reverse.take (cs.length - k)).reverse = cs.drop k := by
    rw [List.reverse_take, List.reverse_reverse, List.length_reverse]
    congr 1
    omega
  rw [← h1, List.all_reverse, take_all_iff_takeWhile, List.length_reverse]
  omega

theorem ebcValid_no_newline (cs : List Char)
    (hnl : ∀ c ∈ cs, c ≠ '\n') (k : Nat) :
    ebcValid cs k = (!(cs.drop k).isEmpty && (cs.drop k).all Char.isDigit) := by
  unfold ebcValid
  have h1 : (cs.take k).all (fun c => !(c == '\n')) = true := by
    rw [List.all_eq_true]
    intro c hc
    simpa using hnl c (List.mem_of_mem_take hc)
  rw [h1, Bool.true_and]
  have h2 : ((cs.drop k).getLast? == some '\n') = false := by
    cases hg : (cs.drop k).getLast? with
    | none => rfl
    | some c =>
      have hmem : c ∈ cs.drop k := getLast?_mem_self _ _ hg
      have hcne : c ≠ '\n' := hnl c (List.drop_subset k cs hmem)
      simpa using hcne
  rw [h2, Bool.false_and, Bool.false_and, Bool.or_false]

/-- On newline-free stems the regex computes exactly the amended
base-category rule. -/
theorem extract_base_eq_amended (s : String)
    (hnl : ∀ c ∈ s.data, c ≠ '\n') :
    extract_base_category s = amendedBase s := by
  have hrn : (s.data.reverse.takeWhile Char.isDigit).length ≤ s.data.length := by
    have := List.Sublist.length_le (List.takeWhile_sublist (l := s.data.reverse)
      (p := Char.isDigit))
    rw [List.length_reverse] at this
    exact this
  set cs := s.data with hcs
  set n := cs.length with hn
  set r := (cs.reverse.takeWhile Char.isDigit).length with hrdef
  have hp : ∀ k, (ebcValid cs k = true) ↔ (k < n ∧ n - k ≤ r) := by
    intro k
    rw [ebcValid_no_newline cs hnl k]
    by_cases hk : k < n
    · have hkle : k ≤ cs.length := by omega
      have hne : (cs.drop k).isEmpty = false := by
        rw [List.isEmpty_eq_false]
        intro hnil
        rw [List.drop_eq_nil_iff] at hnil
        omega
      rw [hne]
      simp only [Bool.not_false, Bool.true_and]
      rw [drop_all_digit_iff cs k hkle]
      constructor
      · intro h; exact ⟨hk, h⟩
      · intro h; exact h.2
    · have hnil : cs.drop k = [] := by
        rw [List.drop_eq_nil_iff]
        omega
      rw [hnil]
      simp only [List.isEmpty_nil, Bool.not_true, Bool.false_and,
        Bool.false_eq_true, false_iff]
      intro hcontra
      omega
  have hkept : cs.reverse.dropWhile Char.isDigit = cs.reverse.drop r := by
    conv_lhs => rw [show cs.reverse.dropWhile Char.isDigit =
      List.drop (cs.reverse.takeWhile Char.isDigit).length
        ((cs.reverse.takeWhile Char.isDigit) ++
          (cs.reverse.dropWhile Char.isDigit)) from
      (List.drop_left _ _).symm]
    rw [List.takeWhile_append_dropWhile]
  have hkeptlen : (cs.reverse.dropWhile Char.isDigit).length = n - r := by
    rw [hkept, List.length_drop, List.length_reverse]
  by_cases hr : r = 0
  · -- no trailing digits: no regex match, standalone on both sides
    have hnone : firstValid (ebcValid cs) n 1 = none := by
      cases hfv : firstValid (ebcValid cs) n 1 with
      | none => rfl
      | some k =>
        exfalso
        obtain ⟨hk, _, _, _⟩ := firstValid_some_spec _ _ _ _ hfv
        rw [hp k] at hk
        omega
    have htd : (cs.reverse.takeWhile Char.isDigit).isEmpty = true := by
      rw [List.isEmpty_iff, ← List.length_eq_zero]
      omega
    have hlhs : extract_base_category s = s := by
      unfold extract_base_category
      rw [← hcs, ← hn, hnone]
    have hrhs : amendedBase s = s := by
      simp only [amendedBase, ← hcs, htd]
      rfl
    rw [hlhs, hrhs]
  · have htd : (cs.reverse.takeWhile Char.isDigit).isEmpty = false := by
      rw [List.isEmpty_eq_false]
      intro hnil
      rw [hnil] at hrdef
      simp at hrdef
      omega
    by_cases hn2 : 2 ≤ n
    · -- a match exists; the shortest group length is max 1 (n - r)
      have hsome : firstValid (ebcValid cs) n 1 = some (max 1 (n - r)) := by
        apply firstValid_eq_some
        · rw [hp]
          omega
        · omega
        · omega
        · intro j hj1 hj2
          rw [show ∀ b, (b = false) = (¬ b = true) from fun b => by simp]
          rw [hp]
          omega
      have hlhs : extract_base_category s = ⟨cs.take (max 1 (n - r))⟩ := by
        unfold extract_base_category
        rw [← hcs, ← hn, hsome]
      rw [hlhs]
      by_cases hralln : r = n
      · -- all-digit stem of length at least 2: keep the first character
        have hkempty : (cs.reverse.dropWhile Char.isDigit).isEmpty = true := by
          rw [List.isEmpty_iff, ← List.length_eq_zero, hkeptlen]
          omega
        have hrhs : amendedBase s = ⟨cs.take 1⟩ := by
          simp only [amendedBase, ← hcs, ← hn, htd, hkempty]
          rw [if_pos trivial, if_pos hn2]
          simp
        rw [hrhs]
        have : max 1 (n - r) = 1 := by omega
        rw [this]
      · -- proper digit suffix: strip exactly the trailing run
        have hkne : (cs.reverse.dropWhile Char.isDigit).isEmpty = false := by
          rw [List.isEmpty_eq_false]
          intro hnil
          have hz := hkeptlen
          rw [hnil] at hz
          simp at hz
          omega
        have hrhs : amendedBase s =
            ⟨(cs.reverse.dropWhile Char.isDigit).reverse⟩ := by
          simp only [amendedBase, ← hcs, htd, hkne]
          simp
        rw [hrhs]
        have hmax : max 1 (n - r) = n - r := by omega
        rw [hmax]
        have htake : (cs.take (n - r)).reverse = cs.reverse.drop r := by
          rw [List.reverse_take]
          congr 1
          omega
        rw [hkept, ← htake, List.reverse_reverse]
    · -- a stem of length at most 1 never matches: the lazy group and
      -- the digit run each need one character
      have hn1 : n = 1 := by omega
      have hnone : firstValid (ebcValid cs) n 1 = none := by
        cases hfv : firstValid (ebcValid cs) n 1 with
        | none => rfl
        | some k =>
          exfalso
          obtain ⟨hk, hk1, hk2, _⟩ := firstValid_some_spec _ _ _ _ hfv
          rw [hp k] at hk
          omega
      have hkempty : (cs.reverse.dropWhile Char.isDigit).isEmpty = true := by
        rw [List.isEmpty_iff, ← List.length_eq_zero, hkeptlen]
        omega
      have hlhs : extract_base_category s = s := by
        unfold extract_base_category
        rw [← hcs, ← hn, hnone]
      have hrhs : amendedBase s = s := by
        simp only [amendedBase, ← hcs, ← hn, htd, hkempty]
        rw [if_pos trivial, if_neg (by omega : ¬ 2 ≤ n)]
        simp
      rw [hlhs, hrhs]

/-- Python dict-of-lists grouping order: keys in first-occurrence
order (`defaultdict` insertion order). -/
def firstDedup (l : List String) : List String :=
  l.foldl (fun acc x => if x ∈ acc then acc else acc ++ [x]) []

/-- `merge_similar_categories`, parametrised by the base-category
function under comparison.  A file is a `(stem, rows)` pair, listed in
directory order.  Files whose stem starts with the `merged_` marker
are skipped; the rest are split into grouped files (base ≠ stem) and
standalone files (base = stem).  Groups are emitted first, in
first-occurrence order of their base, each the concatenation (in file
order) of its members' rows, sorted by food code — and *only when the
result is non-empty* (the source's `if sorted_data:` guard).  Then
every standalone file is emitted with its rows sorted; no emptiness
guard exists on that path.  Every artifact is named
`merged_<base>`. -/
def mergePassCore (baseOf : String → String)
    (files : List (String × List Row)) : List (String × List Row) :=
  let considered := files.filter
    (fun f => !(startsWithL f.1.data ("merged_").data))
  let grouped := considered.filter (fun f => !(baseOf f.1 == f.1))
  let standalone := considered.filter (fun f => baseOf f.1 == f.1)
  let bases := firstDedup (grouped.map (fun f => baseOf f.1))
  (bases.filterMap (fun b =>
    let sorted_data := sort_food_data_by_code
      ((grouped.filter (fun f => baseOf f.1 == b)).flatMap Prod.snd)
    if sorted_data.isEmpty then none
    else some ("merged_" ++ b, sorted_data)))
  ++ standalone.map (fun f => ("merged_" ++ f.1, sort_food_data_by_code f.2))

/-- The second pass as implemented: base categories computed by
`extract_base_category`. -/
def merge_similar_categories (files : List (String × List Row)) :
    List (String × List Row) :=
  mergePassCore extract_base_category files

/-- The second pass as the amended claim words it. -/
def claimCategoryMerger (files : List (String × List Row)) :
    List (String × List Row) :=
  mergePassCore amendedBase files

/-- The pass only consults the base function on the stems present. -/
theorem mergePassCore_congr (b1 b2 : String → String)
    (files : List (String × List Row))
    (h : ∀ f ∈ files, b1 f.1 = b2 f.1) :
    mergePassCore b1 files = mergePassCore b2 files := by
  simp only [mergePassCore]
  have h2 : ∀ f ∈ files.filter
      (fun f => !(startsWithL f.1.data ("merged_").data)), b1 f.1 = b2 f.1 :=
    fun f hf => h f (List.mem_of_mem_filter hf)
  have hg : (files.filter (fun f => !(startsWithL f.1.data ("merged_").data))).filter
        (fun f => !(b1 f.1 == f.1)) =
      (files.filter (fun f => !(startsWithL f.1.data ("merged_").data))).filter
        (fun f => !(b2 f.1 == f.1)) :=
    List.filter_congr (fun f hf => by rw [h2 f hf])
  have hs : (files.filter (fun f => !(startsWithL f.1.data ("merged_").data))).filter
        (fun f => b1 f.1 == f.1) =
      (files.filter (fun f => !(startsWithL f.1.data ("merged_").data))).filter
        (fun f => b2 f.1 == f.1) :=
    List.filter_congr (fun f hf => by rw [h2 f hf])
  rw [hg, hs]
  have h3 : ∀ f ∈ (files.filter
      (fun f => !(startsWithL f.1.data ("merged_").data))).filter
        (fun f => !(b2 f.1 == f.1)), b1 f.1 = b2 f.1 :=
    fun f hf => h2 f (List.mem_of_mem_filter hf)
  have hmap : ((files.filter (fun f => !(startsWithL f.1.data ("merged_").data))).filter
        (fun f => !(b2 f.1 == f.1))).map (fun f => b1 f.1) =
      ((files.filter (fun f => !(startsWithL f.1.data ("merged_").data))).filter
        (fun f => !(b2 f.1 == f.1))).map (fun f => b2 f.1) :=
    List.map_congr_left (fun f hf => h3 f hf)
  rw [hmap]
  have hinner : ∀ b, ((files.filter
        (fun f => !(startsWithL f.1.data ("merged_").data))).filter
          (fun f => !(b2 f.1 == f.1))).filter (fun f => b1 f.1 == b) =
      ((files.filter (fun f => !(startsWithL f.1.data ("merged_").data))).filter
        (fun f => !(b2 f.1 == f.1))).filter (fun f => b2 f.1 == b) :=
    fun b => List.filter_congr (fun f hf => by rw [h3 f hf])
  apply congrArg (· ++ _)
  apply List.filterMap_congr
  intro b _
  rw [hinner b]

def c5CexFiles : List (String × List Row) := [("12", [[(foodCodeKey, "1")]])]

/-- C5 counterexample: on a file whose stem `"12"` is entirely digits,
the code's base category is `"1"` — the lazy group `(.+?)` of
`(.+?)\d+$` must keep one character — while the claim's rule (strip
the trailing digit run; no-trailing-digit stems standalone) yields the
empty base `""`; the produced artifact is named `merged_1`, not named
from the claimed base, so the pass differs from the claim's
description at this input. -/
theorem C5_counterexample :
    extract_base_category ("12") = "1" ∧ claimBaseOrig ("12") = "" ∧
      merge_similar_categories c5CexFiles ≠ mergePassCore claimBaseOrig c5CexFiles := by
  refine ⟨by decide, by decide, ?_⟩
  decide

def c5Example : List (String × List Row) :=
  [("beef1", [[(foodCodeKey, "3")]]),
   ("beef2", [[(foodCodeKey, "2")]]),
   ("duck", [[(foodCodeKey, "10")], [(foodCodeKey, "9")]])]

def c5ExampleOut : List (String × List Row) :=
  [("merged_beef", [[(foodCodeKey, "2")], [(foodCodeKey, "3")]]),
   ("merged_duck", [[(foodCodeKey, "9")], [(foodCodeKey, "10")]])]

/-- C5 (amended): on newline-free stems the second pass behaves
exactly as the claim describes, with the base-category rule amended to
keep a non-empty prefix: strip the longest trailing digit run that
leaves a non-empty prefix (an all-digit stem keeps its first
character; a one-character or digit-free stem is standalone).  In
particular `beef1`, `beef2`, `duck` produce one artifact for base
`beef` (concatenation of both, sorted) and one for `duck` (sorted
copy), and no `beef1`/`beef2` artifact survives. -/
theorem C5_amended :
    (∀ files : List (String × List Row),
      (∀ f ∈ files, ∀ c ∈ f.1.data, c ≠ '\n') →
      merge_similar_categories files = claimCategoryMerger files)
    ∧ merge_similar_categories c5Example = c5ExampleOut := by
  constructor
  · intro files hnl
    exact mergePassCore_congr extract_base_category amendedBase files
      (fun f hf => extract_base_eq_amended f.1 (hnl f hf))
  · decide

/-- C5 witness: the amended theorem applied at the claim's concrete
example, the newline-free hypothesis discharged by `decide`. -/
theorem C5_witness :
    merge_similar_categories c5Example = claimCategoryMerger c5Example :=
  C5_amended.1 c5Example (by decide)

/-! ## Category extraction (`extract_category_from_filename`, source
lines 692-712) and its call site (`process_directory`, lines 738-754)

`extract_category_from_filename` tries
`re.match(r'(.+?)-\d+(?:-energy|-nutrient)', filename)`: the lazy
group takes the shortest non-empty newline-free prefix followed by
`-`, a maximal non-empty digit run (shorter runs cannot help, since
the alternation must then start with a digit) and then the literal
`-energy` or `-nutrient`; anything may follow (`re.match` is
prefix-anchored only).  Failing that it tries
`re.match(r'(.+?)(?:-energy|-nutrient)', filename)`, and failing that
returns `Path(filename).stem`.

`process_directory`, however, derives the category from the *base
name* `file.replace('-energy.png', '')` — the suffix the patterns
expect has already been removed, so for ordinary screenshot names both
patterns fail and the category keeps its digit suffix, contradicting
the function's own docstring example
(`'鱼虾蟹贝类-鱼1-energy.png' -> '鱼虾蟹贝类-鱼'`). -/

def pat1Valid (cs : List Char) (k : Nat) : Bool :=
  0 < k && (cs.take k).all (fun c => !(c == '\n')) &&
    ((cs.drop k).head? == some '-' &&
      (let afterDash := (cs.drop k).drop 1
       let ds := afterDash.takeWhile Char.isDigit
       !ds.isEmpty &&
         (startsWithL (afterDash.drop ds.length) ("-energy").data ||
          startsWithL (afterDash.drop ds.length) ("-nutrient").data)))

def pat2Valid (cs : List Char) (k : Nat) : Bool :=
  0 < k && (cs.take k).all (fun c => !(c == '\n')) &&
    (startsWithL (cs.drop k) ("-energy").data ||
     startsWithL (cs.drop k) ("-nutrient").data)

/-- CPython `PurePath.stem`: the name without its suffix; a suffix
exists when the last dot sits strictly inside the name
(`0 < i < len(name) - 1`). -/
def pyStem (name : String) : String :=
  match name.data.reverse.findIdx? (fun c => c == '.') with
  | some j =>
      let i := name.data.length - 1 - j
      if 0 < i ∧ i < name.data.length - 1 then ⟨name.data.take i⟩ else name
  | none => name

def extract_category_from_filename (filename : String) : String :=
  match firstValid (pat1Valid filename.data) filename.data.length 1 with
  | some k => ⟨filename.data.take k⟩
  | none =>
      match firstValid (pat2Valid filename.data) filename.data.length 1 with
      | some k => ⟨filename.data.take k⟩
      | none => pyStem filename

/-- Python `str.replace(pat, '')`: remove non-overlapping occurrences
left to right. -/
def replaceAllAux (pat : List Char) : Nat → List Char → List Char
  | 0, cs => cs
  | fuel + 1, cs =>
      if startsWithL cs pat && !pat.isEmpty then
        replaceAllAux pat fuel (cs.drop pat.length)
      else
        match cs with
        | [] => []
        | c :: rest => c :: replaceAllAux pat fuel rest

def pyReplaceAll (s pat : String) : String :=
  if pat.data.isEmpty then s
  else ⟨replaceAllAux pat.data s.data.length s.data⟩

/-- The base name `process_directory` computes for an energy image. -/
def pipelineBaseName (file : String) : String :=
  pyReplaceAll file ("-energy.png")

/-- The category `process_directory` stores for the pair of an energy
image: the extraction patterns applied to the suffix-stripped base
name. -/
def pipelineCategory (file : String) : String :=
  extract_category_from_filename (pipelineBaseName file)

/-- C7: evaluation of the code at the failing input.  For the pair of
`abc-12-energy.png` / `abc-12-nutrient.png` the claim (tier 1 on the
pair's filename) derives category `abc`, and indeed the extraction
function itself returns `abc` on the full filename; but the pipeline
strips the `-energy.png` suffix *before* calling it, so the stored
category is `abc-12`.  The last two conjuncts evaluate the function at
its own docstring example: the docstring promises
`鱼虾蟹贝类-鱼` yet the function returns `鱼虾蟹贝类-鱼1` — and the
pipeline, through the base name, also stores `鱼虾蟹贝类-鱼1`. -/
theorem C7_category_divergence :
    pipelineCategory ("abc-12-energy.png") = "abc-12" ∧
    extract_category_from_filename ("abc-12-energy.png") = "abc" ∧
    ("abc-12" : String) ≠ "abc" ∧
    extract_category_from_filename ("鱼虾蟹贝类-鱼1-energy.png") = "鱼虾蟹贝类-鱼1" ∧
    pipelineCategory ("鱼虾蟹贝类-鱼1-energy.png") = "鱼虾蟹贝类-鱼1" := by
  refine ⟨by decide, by decide, by decide, by decide, by decide⟩

/-! ## Fence stripping (`extract_markdown_table`, source lines 79-104)

The source runs
`re.fullmatch(r'^\s*```(?:markdown|MARKDOWN|md|MD)?\s*[\n]?(.*?)\s*```\s*$', text, re.DOTALL)`
and returns `group(1).strip()` on success, `text.strip()` otherwise.

Backtracking is resolved deterministically as follows.  The leading
greedy `\s*` must end exactly at the maximal whitespace run, because a
backtick is not whitespace.  The tag alternation commits to the first
alternative that is a literal prefix of what follows the opening
fence; since tag letters contain no backtick and no whitespace, the
choice of alternative never affects whether the rest of the pattern
can match, so no backtracking across the alternation occurs.  The
greedy `\s*` after the tag again ends at the maximal whitespace run,
which also forces `[\n]?` to match the empty string.  The lazy group
then grows one character at a time until the first position `q` at
which the remainder is (maximal whitespace run)(three backticks)(all
whitespace to the end) — the trailing `\s*$` under `fullmatch` forces
everything after the closing fence to be whitespace. -/

def fenceMarker : List Char := ['`', '`', '`']

def fenceTags : List String := ["markdown", "MARKDOWN", "md", "MD"]

/-- The tag alternative the engine commits to (empty when none of the
four literals is a prefix). -/
def pickTag (rest0 : List Char) : List Char :=
  match fenceTags.find? (fun t => startsWithL rest0 t.data) with
  | some t => t.data
  | none => []

/-- Position `q` closes the match: after the lazy group stops at `q`,
a maximal whitespace run, the closing fence, and trailing whitespace
up to the end of the string follow. -/
def validClose (xs : List Char) (q : Nat) : Bool :=
  let after := xs.drop q
  let t := (after.takeWhile isPySpace).length
  startsWithL (after.drop t) fenceMarker && (after.drop (t + 3)).all isPySpace

def extractTableCore (cs : List Char) : List Char :=
  let afterWs := cs.dropWhile isPySpace
  if startsWithL afterWs fenceMarker then
    let rest0 := afterWs.drop 3
    let tag := pickTag rest0
    let rest := rest0.drop tag.length
    let m2 := (rest.takeWhile isPySpace).length
    match firstValid (validClose rest) rest.length m2 with
    | some q => pyStripL ((rest.take q).drop m2)
    | none => pyStripL cs
  else pyStripL cs

def extract_markdown_table (response_text : String) : String :=
  ⟨extractTableCore response_text.data⟩

/-- C9: counterexample.  The tag alternation is the four exact
literals `markdown`, `MARKDOWN`, `md`, `MD` — not "any case/spelling
variant".  For the mixed-case fence tag `Markdown` no alternative
matches, the tag is parsed as part of the lazy group, and the function
returns `Markdown\nX` instead of the inner content `X` (which the
exact-lowercase tag does produce). -/
theorem C9_counterexample :
    extract_markdown_table ("```Markdown\nX\n```") ≠ "X" ∧
    extract_markdown_table ("```Markdown\nX\n```") = "Markdown\nX" ∧
    extract_markdown_table ("```markdown\nX\n```") = "X" := by
  refine ⟨by decide, by decide, by decide⟩

theorem startsWithL_append_self (pre r : List Char) :
    startsWithL (pre ++ r) pre = true := by
  induction pre with
  | nil => simp [startsWithL, List.isPrefixOf]
  | cons c cs ih => simp [startsWithL, List.isPrefixOf] at ih ⊢


theorem dropWhile_append_all {p : Char → Bool} (l1 l2 : List Char)
    (h : l1.all p = true) :
    (l1 ++ l2).dropWhile p = l2.dropWhile p := by
  induction l1 with
  | nil => simp
  | cons x xs ih =>
    simp only [List.all_cons, Bool.and_eq_true] at h
    simp [List.dropWhile_cons, h.1, ih h.2]

theorem dropWhile_eq_self_of_head {p : Char → Bool} (l : List Char)
    (h : ∀ c, l.head? = some c → p c = false) :
    l.dropWhile p = l := by
  cases l with
  | nil => rfl
  | cons x xs => simp [List.dropWhile_cons, h x rfl]

theorem dropWhile_eq_drop_takeWhile (p : Char → Bool) (l : List Char) :
    l.dropWhile p = l.drop (l.takeWhile p).length := by
  induction l with
  | nil => rfl
  | cons x xs ih =>
    by_cases hx : p x = true
    · simp [List.dropWhile_cons, List.takeWhile_cons, hx, ih]
    · simp [List.dropWhile_cons, List.takeWhile_cons,
        Bool.not_eq_true _ ▸ hx]

theorem getLast?_drop_of_lt (l : List Char) (i : Nat) (h : i < l.length) :
    (l.drop i).getLast? = l.getLast? := by
  have hne : l.drop i ≠ [] := by
    intro hnil
    have := List.length_drop i l
    rw [hnil] at this
    simp at this
    omega
  conv_rhs => rw [← List.take_append_drop i l]
  rw [List.getLast?_append_of_ne_nil _ hne]

/-- A valid close position decomposes the remainder of the string as
whitespace, the closing fence, and trailing whitespace. -/
theorem validClose_decomp (xs : List Char) (q : Nat)
    (h : validClose xs q = true) :
    ∃ a b, xs.drop q = a ++ fenceMarker ++ b ∧
      a.all isPySpace = true ∧ b.all isPySpace = true := by
  simp only [validClose, Bool.and_eq_true] at h
  obtain ⟨h1, h2⟩ := h
  obtain ⟨b, hb⟩ := List.isPrefixOf_iff_prefix.mp h1
  have hdw : (xs.drop q).dropWhile isPySpace = fenceMarker ++ b := by
    rw [dropWhile_eq_drop_takeWhile]
    exact hb.symm
  refine ⟨(xs.drop q).takeWhile isPySpace, b, ?_, ?_, ?_⟩
  · conv_lhs => rw [← List.takeWhile_append_dropWhile isPySpace (xs.drop q)]
    rw [hdw, ← List.append_assoc]
  · exact List.all_eq_true.mpr (fun c hc => List.mem_takeWhile_imp hc)
  · have h3 : ((xs.drop q).drop ((xs.drop q).takeWhile isPySpace).length).drop 3 = b := by
      rw [← dropWhile_eq_drop_takeWhile, hdw]
      simp [fenceMarker]
    rw [List.drop_drop] at h3
    rw [h3] at h2
    exact h2

/-- No premature close: a suffix that still contains a character of
the table body (witnessed by a non-whitespace character) cannot be
written as whitespace, fence, trailing whitespace — the real closing
fence contributes three extra non-whitespace backticks. -/
theorem no_premature_close (suf wsR w4 a b : List Char)
    (hsuf : ∃ c ∈ suf, isPySpace c = false)
    (hR : wsR.all isPySpace = true) (h4 : w4.all isPySpace = true)
    (heq : suf ++ (wsR ++ (fenceMarker ++ w4)) = a ++ fenceMarker ++ b)
    (ha : a.all isPySpace = true) (hb : b.all isPySpace = true) : False := by
  have hcount := congrArg (List.countP (fun c => !isPySpace c)) heq
  simp only [List.countP_append] at hcount
  have hz : ∀ l : List Char, l.all isPySpace = true →
      l.countP (fun c => !isPySpace c) = 0 := by
    intro l hl
    refine List.countP_eq_zero.mpr (fun c hc => ?_)
    have := List.all_eq_true.mp hl c hc
    simp [this]
  have hfence : fenceMarker.countP (fun c => !isPySpace c) = 3 := by decide
  have hpos : 0 < suf.countP (fun c => !isPySpace c) := by
    obtain ⟨c, hc, hcw⟩ := hsuf
    exact List.countP_pos_iff.mpr ⟨c, hc, by simp [hcw]⟩
  rw [hz wsR hR, hz w4 h4, hz a ha, hz b hb, hfence] at hcount
  omega

theorem head?_append_of_head? (l1 l2 : List Char) (c : Char)
    (h : l1.head? = some c) : (l1 ++ l2).head? = some c := by
  cases l1 with
  | nil => simp at h
  | cons x xs => simpa using h

theorem pyStripL_eq_self (l : List Char)
    (h1 : ∀ c, l.head? = some c → isPySpace c = false)
    (h2 : ∀ c, l.getLast? = some c → isPySpace c = false) :
    pyStripL l = l := by
  unfold pyStripL
  rw [dropWhile_eq_self_of_head l h1]
  rw [dropWhile_eq_self_of_head l.reverse ?_, List.reverse_reverse]
  intro c hc
  exact h2 c (by rwa [List.head?_reverse] at hc)

/-- Behaviour of the fence-stripping core on a string that decomposes
as whitespace, opening fence, recognised tag, whitespace-padded body,
closing fence, trailing whitespace: the result is exactly the body
core (the body with its surrounding whitespace removed). -/
theorem extractTableCore_spec (w1 tag wsL core wsR w4 R3 : List Char)
    (hw1 : w1.all isPySpace = true)
    (hwsL : wsL.all isPySpace = true)
    (hwsR : wsR.all isPySpace = true)
    (hw4 : w4.all isPySpace = true)
    (hne : core ≠ [])
    (hcl : core.head?.all (fun c => !isPySpace c) = true)
    (hcr : core.getLast?.all (fun c => !isPySpace c) = true)
    (hR3 : R3 = wsL ++ (core ++ (wsR ++ (fenceMarker ++ w4))))
    (htag : pickTag (tag ++ R3) = tag) :
    extractTableCore (w1 ++ (fenceMarker ++ (tag ++ R3))) = core := by
  have hcore_head : ∃ c, core.head? = some c ∧ isPySpace c = false := by
    cases hh : core.head? with
    | none => exact absurd (List.head?_eq_none_iff.mp hh) hne
    | some c =>
      refine ⟨c, rfl, ?_⟩
      rw [hh] at hcl
      simpa using hcl
  have hcore_last : ∃ d, core.getLast? = some d ∧ isPySpace d = false := by
    cases hh : core.getLast? with
    | none =>
      have : core ≠ [] → core.getLast?.isSome := fun h => List.getLast?_isSome.mpr h
      rw [hh] at this
      exact absurd (this hne) (by simp)
    | some d =>
      refine ⟨d, rfl, ?_⟩
      rw [hh] at hcr
      simpa using hcr
  obtain ⟨c, hch, hcw⟩ := hcore_head
  obtain ⟨d, hdl, hdw⟩ := hcore_last
  have hAfter : (w1 ++ (fenceMarker ++ (tag ++ R3))).dropWhile isPySpace
      = fenceMarker ++ (tag ++ R3) := by
    rw [dropWhile_append_all _ _ hw1]
    refine dropWhile_eq_self_of_head _ (fun x hx => ?_)
    have hx' : x = '`' := by simpa [fenceMarker] using hx.symm
    subst hx'
    decide
  have hTW : (R3.takeWhile isPySpace).length = wsL.length := by
    rw [hR3, takeWhile_append_all _ _ hwsL,
      takeWhile_nil_of_head _ (fun x hx => ?_), List.append_nil]
    have := head?_append_of_head? core (wsR ++ (fenceMarker ++ w4)) c hch
    rw [this] at hx
    cases hx
    exact hcw
  have hQdrop : R3.drop (wsL.length + core.length)
      = wsR ++ (fenceMarker ++ w4) := by
    rw [hR3, ← List.append_assoc,
      show wsL.length + core.length = (wsL ++ core).length from
        (List.length_append _ _).symm,
      List.drop_left]
  have hClose : validClose R3 (wsL.length + core.length) = true := by
    simp only [validClose]
    rw [hQdrop]
    have ht : ((wsR ++ (fenceMarker ++ w4)).takeWhile isPySpace).length
        = wsR.length := by
      rw [takeWhile_append_all _ _ hwsR,
        takeWhile_nil_of_head _ (fun x hx => ?_), List.append_nil]
      have hx' : x = '`' := by simpa [fenceMarker] using hx.symm
      subst hx'
      decide
    rw [ht]
    have hd2 : (wsR ++ (fenceMarker ++ w4)).drop wsR.length
        = fenceMarker ++ w4 := List.drop_left _ _
    have hd3 : (wsR ++ (fenceMarker ++ w4)).drop (wsR.length + 3) = w4 := by
      rw [← List.drop_drop, hd2]
      simp [fenceMarker]
    rw [hd2, hd3, startsWithL_append_self, hw4]
    rfl
  have hFV : firstValid (validClose R3) R3.length wsL.length
      = some (wsL.length + core.length) := by
    apply firstValid_eq_some
    · exact hClose
    · exact Nat.le_add_right _ _
    · have : R3.length = wsL.length + core.length
          + (wsR.length + (3 + w4.length)) := by
        rw [hR3]
        simp [List.length_append, fenceMarker]
        omega
      omega
    · intro j hj1 hj2
      cases hvc : validClose R3 j with
      | false => rfl
      | true =>
        exfalso
        obtain ⟨a, b, heq, ha, hb⟩ := validClose_decomp R3 j hvc
        have hi : j - wsL.length < core.length := by omega
        have hdropj : R3.drop j
            = core.drop (j - wsL.length) ++ (wsR ++ (fenceMarker ++ w4)) := by
          rw [hR3, List.drop_append_eq_append_drop,
            List.drop_append_eq_append_drop,
            List.drop_eq_nil_of_le hj1,
            Nat.sub_eq_zero_of_le (Nat.le_of_lt hi),
            List.drop_zero, List.nil_append]
        refine no_premature_close (core.drop (j - wsL.length)) wsR w4 a b
          ⟨d, ?_, hdw⟩ hwsR hw4 ?_ ha hb
        · have hgl := getLast?_drop_of_lt core (j - wsL.length) hi
          rw [hdl] at hgl
          exact getLast?_mem_self _ _ hgl
        · rw [← hdropj]
          exact heq
  have hContent : (R3.take (wsL.length + core.length)).drop wsL.length
      = core := by
    rw [hR3, ← List.append_assoc,
      show wsL.length + core.length = (wsL ++ core).length from
        (List.length_append _ _).symm,
      List.take_left, List.drop_left]
  simp only [extractTableCore]
  rw [hAfter, if_pos (startsWithL_append_self _ _),
    show (fenceMarker ++ (tag ++ R3)).drop 3 = tag ++ R3 from by
      simp [fenceMarker],
    htag, List.drop_left, hTW, hFV]
  show pyStripL ((R3.take (wsL.length + core.length)).drop wsL.length) = core
  rw [hContent]
  exact pyStripL_eq_self core
    (fun x hx => by rw [hch] at hx; cases hx; exact hcw)
    (fun x hx => by rw [hdl] at hx; cases hx; exact hdw)

theorem head?_dropWhile_not (p : Char → Bool) (l : List Char) :
    ∀ c, (l.dropWhile p).head? = some c → p c = false := by
  induction l with
  | nil => intro c hc; cases hc
  | cons x xs ih =>
    intro c hc
    by_cases hx : p x = true
    · rw [List.dropWhile_cons, if_pos hx] at hc
      exact ih c hc
    · rw [List.dropWhile_cons, if_neg hx] at hc
      injection hc with h
      subst h
      cases hpx : p x with
      | false => rfl
      | true => exact absurd hpx hx

/-- Every list splits as leading whitespace, its stripped core, and
trailing whitespace; the core's endpoints are non-whitespace. -/
theorem pyStrip_decomp (body : List Char) :
    ∃ wsL wsR, body = wsL ++ (pyStripL body ++ wsR) ∧
      wsL.all isPySpace = true ∧ wsR.all isPySpace = true ∧
      (∀ x, (pyStripL body).head? = some x → isPySpace x = false) ∧
      (∀ x, (pyStripL body).getLast? = some x → isPySpace x = false) := by
  refine ⟨body.takeWhile isPySpace,
    ((body.dropWhile isPySpace).reverse.takeWhile isPySpace).reverse,
    ?_, ?_, ?_, ?_, ?_⟩
  · conv_lhs => rw [← List.takeWhile_append_dropWhile isPySpace body]
    congr 1
    show body.dropWhile isPySpace
        = pyStripL body
          ++ ((body.dropWhile isPySpace).reverse.takeWhile isPySpace).reverse
    rw [show pyStripL body
        = ((body.dropWhile isPySpace).reverse.dropWhile isPySpace).reverse
        from rfl]
    conv_lhs => rw [← List.reverse_reverse (body.dropWhile isPySpace),
      ← List.takeWhile_append_dropWhile isPySpace
        (body.dropWhile isPySpace).reverse]
    rw [List.reverse_append]
  · exact List.all_eq_true.mpr (fun c hc => List.mem_takeWhile_imp hc)
  · refine List.all_eq_true.mpr (fun c hc => ?_)
    rw [List.mem_reverse] at hc
    exact List.mem_takeWhile_imp hc
  · intro x hx
    have hu : (pyStripL body).head?
        = ((body.dropWhile isPySpace).reverse.dropWhile isPySpace).getLast? := by
      rw [show pyStripL body
          = ((body.dropWhile isPySpace).reverse.dropWhile isPySpace).reverse
          from rfl]
      exact List.head?_reverse _
    rw [hu] at hx
    have hune : (body.dropWhile isPySpace).reverse.dropWhile isPySpace ≠ [] := by
      intro h0
      rw [h0] at hx
      cases hx
    have hmr : ((body.dropWhile isPySpace).reverse).getLast?
        = ((body.dropWhile isPySpace).reverse.dropWhile isPySpace).getLast? := by
      conv_lhs => rw [← List.takeWhile_append_dropWhile isPySpace
        (body.dropWhile isPySpace).reverse]
      exact List.getLast?_append_of_ne_nil _ hune
    have hmh : ((body.dropWhile isPySpace).reverse).getLast?
        = (body.dropWhile isPySpace).head? := List.getLast?_reverse _
    have hmx : (body.dropWhile isPySpace).head? = some x := by
      rw [← hmh, hmr]
      exact hx
    exact head?_dropWhile_not isPySpace body x hmx
  · intro x hx
    have hu : (pyStripL body).getLast?
        = ((body.dropWhile isPySpace).reverse.dropWhile isPySpace).head? := by
      rw [show pyStripL body
          = ((body.dropWhile isPySpace).reverse.dropWhile isPySpace).reverse
          from rfl]
      exact List.getLast?_reverse _
    rw [hu] at hx
    exact head?_dropWhile_not isPySpace (body.dropWhile isPySpace).reverse x hx

/-- Behaviour of the fence-stripping core when the body between the
fences is all whitespace: the result is empty. -/
theorem extractTableCoreWs_spec (w1 tag wsB w4 R3 : List Char)
    (hw1 : w1.all isPySpace = true)
    (hwsB : wsB.all isPySpace = true)
    (hw4 : w4.all isPySpace = true)
    (hR3 : R3 = wsB ++ (fenceMarker ++ w4))
    (htag : pickTag (tag ++ R3) = tag) :
    extractTableCore (w1 ++ (fenceMarker ++ (tag ++ R3))) = [] := by
  have hAfter : (w1 ++ (fenceMarker ++ (tag ++ R3))).dropWhile isPySpace
      = fenceMarker ++ (tag ++ R3) := by
    rw [dropWhile_append_all _ _ hw1]
    refine dropWhile_eq_self_of_head _ (fun x hx => ?_)
    have hx' : x = '`' := by simpa [fenceMarker] using hx.symm
    subst hx'
    decide
  have hTW : (R3.takeWhile isPySpace).length = wsB.length := by
    rw [hR3, takeWhile_append_all _ _ hwsB,
      takeWhile_nil_of_head _ (fun x hx => ?_), List.append_nil]
    have hx' : x = '`' := by simpa [fenceMarker] using hx.symm
    subst hx'
    decide
  have hQdrop : R3.drop wsB.length = fenceMarker ++ w4 := by
    rw [hR3, List.drop_left]
  have hClose : validClose R3 wsB.length = true := by
    simp only [validClose]
    rw [hQdrop]
    have ht : ((fenceMarker ++ w4).takeWhile isPySpace).length = 0 := by
      rw [takeWhile_nil_of_head _ (fun x hx => ?_)]
      · rfl
      · have hx' : x = '`' := by simpa [fenceMarker] using hx.symm
        subst hx'
        decide
    rw [ht]
    have hd3 : (fenceMarker ++ w4).drop (0 + 3) = w4 := by simp [fenceMarker]
    rw [List.drop_zero, hd3, startsWithL_append_self, hw4]
    rfl
  have hFV : firstValid (validClose R3) R3.length wsB.length
      = some wsB.length := by
    apply firstValid_eq_some
    · exact hClose
    · exact Nat.le_refl _
    · have hlen : R3.length = wsB.length + (3 + w4.length) := by
        rw [hR3]
        simp [List.length_append, fenceMarker]
        omega
      omega
    · intro j hj1 hj2
      exact absurd hj2 (Nat.not_lt.mpr hj1)
  simp only [extractTableCore]
  rw [hAfter, if_pos (startsWithL_append_self _ _),
    show (fenceMarker ++ (tag ++ R3)).drop 3 = tag ++ R3 from by
      simp [fenceMarker],
    htag, List.drop_left, hTW, hFV]
  show pyStripL ((R3.take wsB.length).drop wsB.length) = []
  have hnil : (R3.take wsB.length).drop wsB.length = [] := by
    apply List.drop_eq_nil_of_le
    rw [List.length_take]
    exact min_le_left _ _
  rw [hnil]
  rfl

theorem validClose_of_length_le (xs : List Char) (q : Nat)
    (h : xs.length ≤ q) : validClose xs q = false := by
  simp only [validClose]
  rw [List.drop_eq_nil_of_le h]
  rfl

/-- The tag-stripped remainder the fence-stripping core searches for a
closing fence. -/
def fenceRest (cs : List Char) : List Char :=
  let rest0 := (cs.dropWhile isPySpace).drop 3
  rest0.drop (pickTag rest0).length

/-- Behaviour of the fence-stripping core when no position closes the
match (an opening fence without a valid closing fence): the fullmatch
fails and the whole text is merely stripped. -/
theorem extractTableCore_no_close (cs : List Char)
    (h : ∀ q, q < (fenceRest cs).length → validClose (fenceRest cs) q = false) :
    extractTableCore cs = pyStripL cs := by
  simp only [extractTableCore]
  by_cases hsw : startsWithL (cs.dropWhile isPySpace) fenceMarker = true
  · rw [if_pos hsw]
    set R := ((cs.dropWhile isPySpace).drop 3).drop
      (pickTag ((cs.dropWhile isPySpace).drop 3)).length with hRdef
    have hfr : fenceRest cs = R := by
      rw [hRdef]
      rfl
    rw [hfr] at h
    have hnone : firstValid (validClose R) R.length
        ((R.takeWhile isPySpace).length) = none := by
      cases hfv : firstValid (validClose R) R.length
          ((R.takeWhile isPySpace).length) with
      | none => rfl
      | some q =>
        exfalso
        obtain ⟨hq, _, _, _⟩ := firstValid_some_spec _ _ _ _ hfv
        by_cases hql : q < R.length
        · rw [h q hql] at hq
          cases hq
        · rw [validClose_of_length_le _ _ (Nat.le_of_not_lt hql)] at hq
          cases hq
    rw [hnone]
  · rw [if_neg hsw]

/-- C9 (amended): the fence tag must be one of the four exact literals
`markdown`, `MARKDOWN`, `md`, `MD`, or absent.  First conjunct:
whenever the response decomposes as whitespace, opening fence, the tag
the alternation recognises, an arbitrary body (possibly all
whitespace), closing fence, trailing whitespace, the function returns
exactly the body with its surrounding whitespace removed.  Second
conjunct: text not wrapped this way — its first non-whitespace
characters are not an opening fence, or no position closes the match
(an opening fence without a valid closing fence) — is returned with
surrounding whitespace stripped and is otherwise unchanged. -/
theorem C9_amended :
    (∀ w1 tag body w4 : List Char,
      w1.all isPySpace = true →
      w4.all isPySpace = true →
      pickTag (tag ++ (body ++ (fenceMarker ++ w4))) = tag →
      extract_markdown_table
        ⟨w1 ++ (fenceMarker ++ (tag ++ (body ++ (fenceMarker ++ w4))))⟩
        = ⟨pyStripL body⟩) ∧
    (∀ s : String,
      (startsWithL (s.data.dropWhile isPySpace) fenceMarker = false ∨
        ∀ q, q < (fenceRest s.data).length →
          validClose (fenceRest s.data) q = false) →
      extract_markdown_table s = pyStrip s) := by
  constructor
  · intro w1 tag body w4 hw1 hw4 htag
    obtain ⟨wsL, wsR, hdec, hL, hR, hh, hl⟩ := pyStrip_decomp body
    by_cases hne : pyStripL body = []
    · have hbody : body.all isPySpace = true := by
        rw [hdec, hne]
        simp only [List.nil_append, List.all_append, Bool.and_eq_true]
        exact ⟨hL, hR⟩
      have h := extractTableCoreWs_spec w1 tag body w4
        (body ++ (fenceMarker ++ w4)) hw1 hbody hw4 rfl htag
      unfold extract_markdown_table
      rw [hne]
      exact congrArg String.mk h
    · have hcl : (pyStripL body).head?.all (fun c => !isPySpace c) = true := by
        cases hhd : (pyStripL body).head? with
        | none => exact absurd (List.head?_eq_none_iff.mp hhd) hne
        | some c =>
          have hcw := hh c hhd
          simp [Option.all_some, hcw]
      have hcr : (pyStripL body).getLast?.all (fun c => !isPySpace c) = true := by
        cases hgl : (pyStripL body).getLast? with
        | none =>
          have hsome := List.getLast?_isSome.mpr hne
          rw [hgl] at hsome
          cases hsome
        | some d =>
          have hdw := hl d hgl
          simp [Option.all_some, hdw]
      have hR3 : tag ++ (body ++ (fenceMarker ++ w4))
          = tag ++ (wsL ++ (pyStripL body ++ (wsR ++ (fenceMarker ++ w4)))) := by
        conv_lhs => rw [hdec]
        simp [List.append_assoc]
      rw [hR3] at htag
      have h := extractTableCore_spec w1 tag wsL (pyStripL body) wsR w4
        (wsL ++ (pyStripL body ++ (wsR ++ (fenceMarker ++ w4))))
        hw1 hL hR hw4 hne hcl hcr rfl htag
      unfold extract_markdown_table
      refine congrArg String.mk ?_
      have harg : w1 ++ (fenceMarker ++ (tag ++ (body ++ (fenceMarker ++ w4))))
          = w1 ++ (fenceMarker ++ (tag ++ (wsL
              ++ (pyStripL body ++ (wsR ++ (fenceMarker ++ w4)))))) := by
        conv_lhs => rw [hdec]
        simp [List.append_assoc]
      rw [show (String.mk (w1
            ++ (fenceMarker ++ (tag ++ (body ++ (fenceMarker ++ w4)))))).data
          = w1 ++ (fenceMarker ++ (tag ++ (body ++ (fenceMarker ++ w4))))
          from rfl, harg]
      exact h
  · intro s hs
    rcases hs with hs | hs
    · unfold extract_markdown_table pyStrip
      refine congrArg String.mk ?_
      simp only [extractTableCore]
      rw [if_neg ?_]
      rw [hs]
      simp
    · unfold extract_markdown_table pyStrip
      exact congrArg String.mk (extractTableCore_no_close s.data hs)

/-- Witness: a padded `md`-tagged fence around a one-row table body, an
unfenced plain text, and an opening fence with no closing fence. -/
theorem C9_amended_witness :
    extract_markdown_table
      ⟨[' '] ++ (fenceMarker ++ (['m', 'd']
        ++ ((['\n', '|', 'a', '|', '\n']) ++ (fenceMarker ++ [' ']))))⟩
      = ⟨pyStripL ['\n', '|', 'a', '|', '\n']⟩ ∧
    extract_markdown_table ("plain text") = pyStrip ("plain text") ∧
    extract_markdown_table ("```oops") = pyStrip ("```oops") :=
  ⟨C9_amended.1 [' '] ['m', 'd'] ['\n', '|', 'a', '|', '\n'] [' ']
      (by decide) (by decide) (by decide),
    C9_amended.2 ("plain text") (Or.inl (by decide)),
    C9_amended.2 ("```oops") (Or.inr (by decide))⟩

/-! ## Tiered parsing (`parse_markdown_table` lines 395-438,
`parse_table_data` lines 440-532) and the zero-row check in
`process_image` (lines 378-393)

The three regexes are modelled with a small backtracking engine: a
regex denotes the list of all (captureless) ways to match a prefix of
the input, in the engine's priority order — greedy pieces longest
first, lazy pieces shortest first, alternatives left to right.  The
first element of the list is the match Python's engine reports.
`re.match` anchors at position 0; the table pattern of
`parse_markdown_table` begins with `^` and is compiled without
`re.MULTILINE`, so its `re.search` can likewise only succeed at
position 0.  `re.DOTALL` makes `.` match every character including
newline.  A capture group is recovered as the characters consumed by
its sub-pattern (the engine only ever consumes from the front).  `$`
(without `re.MULTILINE`) asserts end of input or the position just
before a final newline. -/

def RE (α : Type) : Type := List Char → List (α × List Char)

def repure {α : Type} (a : α) : RE α := fun s => [(a, s)]

def rebind {α β : Type} (m : RE α) (f : α → RE β) : RE β :=
  fun s => (m s).flatMap (fun p => f p.1 p.2)

def reAlt {α : Type} (a b : RE α) : RE α := fun s => a s ++ b s

def reCharU (p : Char → Bool) : RE Unit := fun s =>
  match s with
  | [] => []
  | c :: rest => if p c then [((), rest)] else []

def reLitU (lit : List Char) : RE Unit := fun s =>
  if startsWithL s lit then [((), s.drop lit.length)] else []

/-- Greedy `[p]*`: all run lengths, longest first. -/
def reStarGreedyU (p : Char → Bool) : RE Unit := fun s =>
  let n := (s.takeWhile p).length
  (List.range (n + 1)).map (fun k => ((), s.drop (n - k)))

/-- Greedy `[p]+`: run lengths n, n-1, …, 1. -/
def rePlusGreedyU (p : Char → Bool) : RE Unit := fun s =>
  let n := (s.takeWhile p).length
  (List.range n).map (fun k => ((), s.drop (n - k)))

/-- Lazy `[p]+?`: run lengths 1, 2, …, n. -/
def rePlusLazyU (p : Char → Bool) : RE Unit := fun s =>
  let n := (s.takeWhile p).length
  (List.range n).map (fun k => ((), s.drop (k + 1)))

/-- Lazy `.*?` under `re.DOTALL`: 0, 1, … characters. -/
def reStarLazyAnyU : RE Unit := fun s =>
  (List.range (s.length + 1)).map (fun k => ((), s.drop k))

/-- Greedy `r?`: present first, then absent. -/
def reOptU (a : RE Unit) : RE Unit := fun s => a s ++ [((), s)]

/-- `(?=r)`: zero-width assertion. -/
def reLookahead (m : RE Unit) : RE Unit := fun s =>
  if (m s).isEmpty then [] else [((), s)]

/-- `$` without `re.MULTILINE`. -/
def reDollarU : RE Unit := fun s =>
  if s.isEmpty || s == ['\n'] then [((), s)] else []

/-- Capture: the characters `m` consumes. -/
def reCapture (m : RE Unit) : RE (List Char) := fun s =>
  (m s).map (fun p => (s.take (s.length - p.2.length), p.2))

/-- Greedy `r+` on a sub-pattern, fuelled; every iteration of the
patterns used here consumes at least one character, so a fuel of
input length + 1 is exact. -/
def rePlusU (a : RE Unit) : Nat → RE Unit
  | 0 => fun _ => []
  | fuel + 1 => rebind a (fun _ => reAlt (rePlusU a fuel) (repure ()))

/-- The match Python reports: the engine's first alternative. -/
def matchFirst {α : Type} (m : RE α) (s : List Char) :
    Option (α × List Char) :=
  (m s).head?

/-- Character class `[-:\s|]`. -/
def sepClass (c : Char) : Bool :=
  c == '-' || c == ':' || isPySpace c || c == '|'

/-- One data-row iteration `\|.*?\|\s*(?:\n|$)` of the table pattern. -/
def rowRE : RE Unit :=
  rebind (reLitU ['|']) fun _ =>
  rebind reStarLazyAnyU fun _ =>
  rebind (reLitU ['|']) fun _ =>
  rebind (reStarGreedyU isPySpace) fun _ =>
  reAlt (reLitU ['\n']) reDollarU

/-- The table pattern
`^\s*\|(.*?)\|\s*\n\|([-:\s|]+)\|\s*\n((?:\|.*?\|\s*(?:\n|$))+)` with
`re.DOTALL`; returns (group 1, group 3). -/
def tableRE (fuel : Nat) : RE (List Char × List Char) :=
  rebind (reStarGreedyU isPySpace) fun _ =>
  rebind (reLitU ['|']) fun _ =>
  rebind (reCapture reStarLazyAnyU) fun g1 =>
  rebind (reLitU ['|']) fun _ =>
  rebind (reStarGreedyU isPySpace) fun _ =>
  rebind (reLitU ['\n']) fun _ =>
  rebind (reLitU ['|']) fun _ =>
  rebind (reCapture (rePlusGreedyU sepClass)) fun _ =>
  rebind (reLitU ['|']) fun _ =>
  rebind (reStarGreedyU isPySpace) fun _ =>
  rebind (reLitU ['\n']) fun _ =>
  rebind (reCapture (rePlusU rowRE fuel)) fun g3 =>
  repure (g1, g3)

def isAsciiAlphaChar (c : Char) : Bool :=
  ('a' ≤ c && c ≤ 'z') || ('A' ≤ c && c ≤ 'Z')

/-- Lookahead `(?=\s+\d|\s+Tr|\s+—|\s+-|$)` of the code/name pattern. -/
def lkAfterName : RE Unit :=
  reAlt (rebind (rePlusGreedyU isPySpace) fun _ => reCharU Char.isDigit)
  (reAlt (rebind (rePlusGreedyU isPySpace) fun _ => reLitU ['T', 'r'])
  (reAlt (rebind (rePlusGreedyU isPySpace) fun _ => reLitU ['—'])
  (reAlt (rebind (rePlusGreedyU isPySpace) fun _ => reLitU ['-'])
  reDollarU)))

/-- `(\d+[a-zA-Z]?)\s+([^\d]+?)(?=\s+\d|\s+Tr|\s+—|\s+-|$)`, used with
`re.match`; returns (group 1, group 2). -/
def codeNameRE : RE (List Char × List Char) :=
  rebind (reCapture (rebind (rePlusGreedyU Char.isDigit) fun _ =>
    reOptU (reCharU isAsciiAlphaChar))) fun g1 =>
  rebind (rePlusGreedyU isPySpace) fun _ =>
  rebind (reCapture (rePlusLazyU (fun c => !Char.isDigit c))) fun g2 =>
  rebind (reLookahead lkAfterName) fun _ =>
  repure (g1, g2)

/-- One value token
`((?:\d+\.\d+|\d+|Tr|—|-|–|[A-Za-z]+)(?:\s+|$))` of the `re.findall`
pattern; the single group spans the whole match. -/
def valueRE : RE (List Char) :=
  reCapture (
    rebind
      (reAlt
        (rebind (rePlusGreedyU Char.isDigit) fun _ =>
          rebind (reLitU ['.']) fun _ => rePlusGreedyU Char.isDigit)
      (reAlt (rePlusGreedyU Char.isDigit)
      (reAlt (reLitU ['T', 'r'])
      (reAlt (reLitU ['—'])
      (reAlt (reLitU ['-'])
      (reAlt (reLitU ['–'])
      (rePlusGreedyU isAsciiAlphaChar))))))) fun _ =>
    reAlt (rePlusGreedyU isPySpace) reDollarU)

/-- `re.findall`: leftmost non-overlapping matches; an empty match is
recorded and the scan advances one character (CPython behaviour —
unreachable here since every `valueRE` match consumes a character). -/
def reFindAll (m : RE (List Char)) : Nat → List Char → List (List Char)
  | 0, _ => []
  | fuel + 1, s =>
      match matchFirst m s with
      | some (v, leftover) =>
          if leftover.length < s.length then v :: reFindAll m fuel leftover
          else
            match s with
            | [] => [v]
            | _ :: rest => v :: reFindAll m fuel rest
      | none =>
          match s with
          | [] => []
          | _ :: rest => reFindAll m fuel rest

/-- Python `str.split(sep)` for a one-character separator (keeps empty
pieces). -/
def pySplitChar (sep : Char) : List Char → List (List Char)
  | [] => [[]]
  | c :: rest =>
      let r := pySplitChar sep rest
      if c == sep then [] :: r
      else
        match r with
        | [] => [[c]]
        | h :: t => (c :: h) :: t

/-- Python slice `[1:-1]`. -/
def dropFirstLast {α : Type} (l : List α) : List α := (l.drop 1).dropLast

/-- `re.split(r'\s+', line)` at its call site, where `line` is
stripped and non-empty: the whitespace-separated tokens. -/
def wsTokens : Nat → List Char → List (List Char)
  | _, [] => []
  | 0, cs => [cs]
  | fuel + 1, cs =>
      let tok := cs.takeWhile (fun c => !isPySpace c)
      if tok.isEmpty then wsTokens fuel (cs.dropWhile isPySpace)
      else tok :: wsTokens fuel ((cs.drop tok.length).dropWhile isPySpace)

/-- Python `str.replace('.', '', 1)`. -/
def removeFirstDot : List Char → List Char
  | [] => []
  | c :: rest => if c == '.' then rest else c :: removeFirstDot rest

/-- Strategy 2 of `parse_table_data`: per line, the code/name regex
plus `re.findall` over the remainder. -/
def strategy2Rows (columns : List String) (data_lines : List (List Char)) :
    List Row :=
  data_lines.foldl (fun result line =>
    if line.length < 10 || !(line.any Char.isDigit) then result
    else
      match matchFirst codeNameRE line with
      | none => result
      | some ((g1, g2), leftover) =>
          let food_code := pyStripL g1
          let food_name := pyStripL g2
          let remaining := pyStripL leftover
          let values :=
            ((reFindAll valueRE (remaining.length + 1) remaining).map
              pyStripL).filter (fun v => !v.isEmpty)
          let item := (List.zip (columns.drop 2) values).foldl
            (fun it p => updRow it p.1 ⟨p.2⟩)
            [(foodCodeKey, ⟨food_code⟩), (foodNameKey, ⟨food_name⟩)]
          if hasKey item foodCodeKey && hasKey item foodNameKey then
            result ++ [item]
          else result) []

/-- Strategy 3 of `parse_table_data`: whitespace tokenisation with a
digit-shaped first token and a name run. -/
def strategy3Rows (columns : List String) (data_lines : List (List Char)) :
    List Row :=
  data_lines.foldl (fun result line =>
    let parts := wsTokens (line.length + 1) line
    if parts.length < 3 then result
    else
      match parts with
      | [] => result
      | p0 :: restParts =>
          let okCode := pyIsdigitL p0 ||
            (pyIsdigitL p0.dropLast &&
              (match p0.getLast? with
               | some c => Char.isAlpha c
               | none => false))
          if !okCode then result
          else
            let sp := List.span (fun p =>
              !(pyIsdigitL (removeFirstDot p)) &&
              !(p == ['T', 'r']) && !(p == ['—']) && !(p == ['-'])) restParts
            if sp.1.isEmpty then result
            else
              let food_name := List.intercalate [' '] sp.1
              let item := (List.zip (columns.drop 2) sp.2).foldl
                (fun it q => updRow it q.1 ⟨q.2⟩)
                [(foodCodeKey, ⟨p0⟩), (foodNameKey, ⟨food_name⟩)]
              result ++ [item]) []

def parse_table_data (text : String) (columns : List String) : List Row :=
  let lines := pySplitChar '\n' (pyStripL text.data)
  let data_lines := (lines.map pyStripL).filter (fun l =>
    !l.isEmpty && !startsWithL l ['-', '-', '-'] && !startsWithL l ['|'])
  let result := strategy2Rows columns data_lines
  if result.isEmpty then strategy3Rows columns data_lines else result

def parse_markdown_table (text : String) (columns : List String) :
    List Row :=
  match matchFirst (tableRE (text.data.length + 1)) text.data with
  | some ((_, g3), _) =>
      (pySplitChar '\n' (pyStripL g3)).foldl (fun result row =>
        let cells := (dropFirstLast (pySplitChar '|' row)).map pyStripL
        if cells.length < 2 then result
        else
          let item := (List.zip columns cells).foldl
            (fun it p => updRow it p.1 ⟨p.2⟩) []
          if hasKey item foodCodeKey && hasKey item foodNameKey then
            result ++ [item]
          else result) []
  | none => parse_table_data text columns

/-- The post-API portion of `process_image`: strip fences, parse with
the column list selected by `is_energy`, and raise (model: return
`Except.error`) exactly when no rows were parsed. -/
def process_image_response (image_name response_text : String)
    (is_energy : Bool) : Except String (List Row) :=
  let text := extract_markdown_table response_text
  let columns := if is_energy then energy_cols else nutrient_cols
  let data := parse_markdown_table text columns
  if data.isEmpty then
    Except.error ("无法从 " ++ image_name ++ " 提取有效数据")
  else Except.ok data

theorem parse_markdown_table_no_match (text : String) (cols : List String)
    (h : matchFirst (tableRE (text.data.length + 1)) text.data = none) :
    parse_markdown_table text cols = parse_table_data text cols := by
  unfold parse_markdown_table
  rw [h]

/-- C8: the per-image processing step signals failure (an exception
that reaches the retry/quarantine path) exactly when the tiered
parsing of the fence-stripped response yields zero retained rows.
First conjunct: the error outcome is equivalent to an empty parse
result.  Second conjunct: a successful outcome returns precisely the
non-empty parse result — the integrity check on `foodCode`/`foodName`
only logs and never raises.  Third conjunct: the tiering — when the
markdown table pattern does not match, the result is that of the
raw-text parser `parse_table_data` (which itself falls back from
strategy 2 to strategy 3). -/
theorem C8_zero_rows_signal :
    ∀ (name raw : String) (ie : Bool),
      ((∃ e, process_image_response name raw ie = Except.error e) ↔
        parse_markdown_table (extract_markdown_table raw)
          (if ie then energy_cols else nutrient_cols) = []) ∧
      (∀ rows, process_image_response name raw ie = Except.ok rows →
        rows ≠ [] ∧
        rows = parse_markdown_table (extract_markdown_table raw)
          (if ie then energy_cols else nutrient_cols)) ∧
      (∀ (text : String) (cols : List String),
        matchFirst (tableRE (text.data.length + 1)) text.data = none →
        parse_markdown_table text cols = parse_table_data text cols) := by
  intro name raw ie
  cases hD : parse_markdown_table (extract_markdown_table raw)
      (if ie then energy_cols else nutrient_cols) with
  | nil =>
    have hp : process_image_response name raw ie
        = Except.error ("无法从 " ++ name ++ " 提取有效数据") := by
      show (if (parse_markdown_table (extract_markdown_table raw)
            (if ie then energy_cols else nutrient_cols)).isEmpty
          then Except.error ("无法从 " ++ name ++ " 提取有效数据")
          else Except.ok (parse_markdown_table (extract_markdown_table raw)
            (if ie then energy_cols else nutrient_cols)))
        = Except.error ("无法从 " ++ name ++ " 提取有效数据")
      rw [hD]
      rfl
    refine ⟨⟨fun _ => rfl, fun _ => ⟨_, hp⟩⟩, ?_, ?_⟩
    · intro rows hr
      rw [hp] at hr
      cases hr
    · exact fun text cols h => parse_markdown_table_no_match text cols h
  | cons r rs =>
    have hp : process_image_response name raw ie = Except.ok (r :: rs) := by
      show (if (parse_markdown_table (extract_markdown_table raw)
            (if ie then energy_cols else nutrient_cols)).isEmpty
          then Except.error ("无法从 " ++ name ++ " 提取有效数据")
          else Except.ok (parse_markdown_table (extract_markdown_table raw)
            (if ie then energy_cols else nutrient_cols)))
        = Except.ok (r :: rs)
      rw [hD]
      rfl
    refine ⟨⟨?_, ?_⟩, ?_, ?_⟩
    · rintro ⟨e, he⟩
      rw [hp] at he
      cases he
    · intro h
      cases h
    · intro rows hr
      rw [hp] at hr
      injection hr with h
      subst h
      exact ⟨by simp, rfl⟩
    · exact fun text cols h => parse_markdown_table_no_match text cols h

/-- Witness: a minimal fenced-free markdown table parses to one row
and the processing step returns it; a non-table text falls through to
the raw-text tier. -/
theorem C8_witness :
    (([[(foodCodeKey, "1"), (foodNameKey, "x")]] : List Row) ≠ [] ∧
      ([[(foodCodeKey, "1"), (foodNameKey, "x")]] : List Row)
        = parse_markdown_table
            (extract_markdown_table ("|c|n|\n|-|-|\n|1|x|\n"))
            (if true then energy_cols else nutrient_cols)) ∧
    parse_markdown_table ("hello") energy_cols
      = parse_table_data ("hello") energy_cols :=
  ⟨(C8_zero_rows_signal ("img") ("|c|n|\n|-|-|\n|1|x|\n") true).2.1
      [[(foodCodeKey, "1"), (foodNameKey, "x")]] (by rfl),
    (C8_zero_rows_signal ("img") ("|c|n|\n|-|-|\n|1|x|\n") true).2.2
      ("hello") energy_cols (by decide)⟩
